import Mathlib

/-!
# ThreadPool: work-sharing / work-stealing task pool

Sequential model of `src/ThreadPool` (ThreadSafeDeque.h, ThreadPool.h,
ThreadPool.cpp).  Every queue operation of the source runs under the queue's
mutex, so each one is an atomic state transformer; the mutexes themselves carry
no state and are left out.  `size_t` is `Nat` with explicit arithmetic modulo
`2 ^ 64` wherever the source subtracts.
-/

namespace ThreadPoolModel

/-! ## size_t -/

/-- Number of values of `size_t`. -/
def SIZE_MOD : Nat := 2 ^ 64

/-- Subtraction of two `size_t` values: wraps modulo `2 ^ 64`. -/
def usize_sub (a b : Nat) : Nat := (a % SIZE_MOD + SIZE_MOD - b % SIZE_MOD) % SIZE_MOD

/-! ## ThreadSafeDeque.h -/

/-- State of a `ThreadSafeDeque<T>`: the contents of its `std::deque<T> deque`,
front first. -/
abbrev ThreadSafeDeque (T : Type) := List T

namespace ThreadSafeDeque

variable {T : Type}

/-- `unsafe_enqueue`: `deque.emplace_back(value)`. -/
def unsafe_enqueue (deque : ThreadSafeDeque T) (value : T) : ThreadSafeDeque T :=
  deque ++ [value]

/-- `unsafe_dequeue`: when the deque is not empty, take `deque.front()`,
`pop_front()` and return the value; otherwise return the empty optional. -/
def unsafe_dequeue (deque : ThreadSafeDeque T) : Option T × ThreadSafeDeque T :=
  match deque with
  | value :: rest => (some value, rest)
  | [] => (none, [])

/-- `unsafe_size`: `deque.size()`. -/
def unsafe_size (deque : ThreadSafeDeque T) : Nat := deque.length

/-- `enqueue`: `unsafe_enqueue` under the lock. -/
def enqueue (deque : ThreadSafeDeque T) (value : T) : ThreadSafeDeque T :=
  unsafe_enqueue deque value

/-- `dequeue`: `unsafe_dequeue` under the lock. -/
def dequeue (deque : ThreadSafeDeque T) : Option T × ThreadSafeDeque T :=
  unsafe_dequeue deque

/-- `size`: `unsafe_size` under the lock. -/
def size (deque : ThreadSafeDeque T) : Nat := unsafe_size deque

/-- `dequeue_top`: its own copy of the front removal, under the lock. -/
def dequeue_top (deque : ThreadSafeDeque T) : Option T × ThreadSafeDeque T :=
  match deque with
  | value :: rest => (some value, rest)
  | [] => (none, [])

/-- Calls `enqueue` once for every element of `values`, first element first. -/
def enqueue_all (deque : ThreadSafeDeque T) (values : List T) : ThreadSafeDeque T :=
  values.foldl enqueue deque

/-- Calls `dequeue` `n` times and collects the returned optionals in call
order, together with the final queue. -/
def dequeue_times : Nat → ThreadSafeDeque T → List (Option T) × ThreadSafeDeque T
  | 0, deque => ([], deque)
  | n + 1, deque =>
    ((dequeue deque).1 :: (dequeue_times n (dequeue deque).2).1,
      (dequeue_times n (dequeue deque).2).2)

end ThreadSafeDeque

open ThreadSafeDeque

/-! ## ThreadPool.h / ThreadPool.cpp: pool state -/

/-- An exception object: its dynamic type and its `what()` message. -/
structure Exn where
  type_name : String
  what : String
  deriving DecidableEq, Repr

/-- The two instantiations of `template <Strategy strategy> class ThreadPool`. -/
inductive Strategy where
  | WorkSharing
  | WorkStealing
  deriving DecidableEq, Repr

/-- Sequential state of a `ThreadPool`.  `rng` is the stream of outputs the
member generator `std::mt19937 rng` has still to produce (it is seeded from
`std::random_device`, so any stream can occur).  Thread handles, mutexes and
the start barrier hold no data the operations read. -/
structure ThreadPool (T : Type) where
  workers_size_ : Nat
  tasks_ : List (ThreadSafeDeque T)
  stop_flag_ : Bool
  rng : Nat → Nat

/-- `const size_t threshold_ = 2;` -/
def threshold_ : Nat := 2

/-- `std::uniform_int_distribution<size_t>{a, b}(g)` applied to one generator
output `g`: a value of `[a, b]`, every value of the range being hit by some
output. -/
def uniform_int_distribution (a b g : Nat) : Nat := a + g % (b - a + 1)

namespace ThreadPool

variable {T : Type}

/-- The `while` loop of `balance_queues` on the two referenced queues.
The body `if (auto task = larger_queue.unsafe_dequeue())
smaller_queue.unsafe_enqueue(*task)` is unfolded on the shape of the larger
queue: on an empty larger queue the body changes nothing, the condition stays
true and the loop never ends, which is the result `none`. -/
def balance_loop : ThreadSafeDeque T → ThreadSafeDeque T →
    Option (ThreadSafeDeque T × ThreadSafeDeque T)
  | [], smaller_queue =>
    if usize_sub (unsafe_size ([] : ThreadSafeDeque T)) (unsafe_size smaller_queue) > threshold_
    then none
    else some ([], smaller_queue)
  | task :: rest, smaller_queue =>
    if usize_sub (unsafe_size (task :: rest)) (unsafe_size smaller_queue) > threshold_
    then balance_loop rest (unsafe_enqueue smaller_queue task)
    else some (task :: rest, smaller_queue)

/-- `ThreadPool::balance_queues(curr, victim)`.  `none` stands for a call that
does not return: an index outside `tasks_`, the same mutex locked twice
(`curr = victim`), or a loop that never ends. -/
def balance_queues (pool : ThreadPool T) (curr victim : Nat) : Option (ThreadPool T) :=
  if curr = victim then none
  else
    match pool.tasks_[curr]?, pool.tasks_[victim]? with
    | some qc, some qv =>
      let smaller := if unsafe_size qc < unsafe_size qv then curr else victim
      let larger := if unsafe_size qc < unsafe_size qv then victim else curr
      let smaller_queue := if unsafe_size qc < unsafe_size qv then qc else qv
      let larger_queue := if unsafe_size qc < unsafe_size qv then qv else qc
      match balance_loop larger_queue smaller_queue with
      | some (larger_queue', smaller_queue') =>
        some { pool with tasks_ := (pool.tasks_.set larger larger_queue').set smaller smaller_queue' }
      | none => none
    | _, _ => none

/-- `ThreadPool::ThreadPool(threads)`: `tasks_(threads)`, `workers_size_ = threads`,
the stop flag clear.  `seed` is what `std::random_device` gives the member
generator.  The body has no check on `threads` and no failing statement of its
own (the barrier is built for `threads + 1` parties and the constructing thread
is one of them), so the result is always `Except.ok`; a failing thread
creation is outside the model. -/
def construct (threads : Nat) (seed : Nat → Nat) : Except Exn (ThreadPool T) :=
  Except.ok { workers_size_ := threads, tasks_ := List.replicate threads [],
              stop_flag_ := false, rng := seed }

/-- `get_rng_index`: `max = workers_size_ - 1` in `size_t`, then one draw of
`std::uniform_int_distribution<size_t>{0, max}` from the member generator,
which advances. -/
def get_rng_index (pool : ThreadPool T) : Nat × ThreadPool T :=
  let max := usize_sub pool.workers_size_ 1
  (uniform_int_distribution 0 max (pool.rng 0), { pool with rng := fun n => pool.rng (n + 1) })

end ThreadPool

/-! ## get_random_with_probability -/

/-- The `thread_local` objects of `get_random_with_probability`, one set per
thread: `generator` is the stream of outputs the thread's generator yields once
it exists, `distribution` is the upper bound `n` the distribution object was
built with, `none` while the thread has not yet run the declarations. -/
structure ThreadLocal where
  generator : Nat → Nat
  distribution : Option Nat

/-- `get_random_with_probability(n)`: `true` at once for `n == 0`; otherwise
the `thread_local` generator and distribution are initialised if this is the
first time the thread reaches their declarations (the distribution with
`(1, n)`), and the result is `distribution(generator) == 1`. -/
def get_random_with_probability (tl : ThreadLocal) (n : Nat) : Bool × ThreadLocal :=
  if n = 0 then (true, tl)
  else
    let bound := match tl.distribution with
      | none => n
      | some b => b
    (uniform_int_distribution 1 bound (tl.generator 0) == 1,
      { generator := fun k => tl.generator (k + 1), distribution := some bound })

/-! ## Futures: std::packaged_task / std::future -/

/-- The shared state behind a `std::future`: `none` while not ready, then the
stored value or the stored exception. -/
abbrev SharedState (V : Type) := Option (Except Exn V)

/-- All shared states allocated so far, by address. -/
abbrev Heap (V : Type) := List (SharedState V)

/-- A callable object run against the shared states: what it returned or
threw, and the shared states after; `none` when it cannot finish on these
shared states (it blocks on a future that is not ready). -/
abbrev Callable (V R : Type) := Heap V → Option (Except Exn R × Heap V)

/-- `std::function<void()>`, the element type of the pool's queues. -/
abbrev Work (V : Type) := Callable V Unit

/-- A callable without effect on the shared states. -/
def pure_callable {V : Type} (f : Unit → Except Exn V) : Callable V V :=
  fun heap => some (f (), heap)

/-- `std::packaged_task<R()>`: the stored callable and the address of its
shared state. -/
structure packaged_task (V : Type) where
  fn : Callable V V
  state : Nat

/-- `std::future_error` with `promise_already_satisfied`. -/
def promise_already_satisfied : Exn :=
  { type_name := "std::future_error", what := "promise already satisfied" }

/-- `packaged_task::operator()`: runs the stored callable and stores what it
returned or threw in the shared state; the call itself returns normally.  On a
shared state that is already ready it throws `std::future_error` instead. -/
def packaged_task.invoke {V : Type} (task : packaged_task V) : Callable V Unit :=
  fun heap =>
    match heap[task.state]? with
    | none => none
    | some (some _) => some (Except.error promise_already_satisfied, heap)
    | some none =>
      match task.fn heap with
      | none => none
      | some (result, heap') => some (Except.ok (), heap'.set task.state (some result))

/-- `std::future::get()`: `none` while the shared state is not ready (the call
blocks), then the value, or the stored exception rethrown. -/
def future_get {V : Type} (heap : Heap V) (future : Nat) : Option (Except Exn V) :=
  match heap[future]? with
  | some (some result) => some result
  | _ => none

namespace ThreadPool

variable {V : Type}

/-- What `enqueue` throws on a stopped pool. -/
def stopped_error : Exn :=
  { type_name := "std::runtime_error", what := "enqueue on stopped ThreadPool" }

/-- `ThreadPool::enqueue(f)`.  The result is what the call returned (the
future, as the address of its shared state) or threw, with the pool and the
shared states after the call; `none` when `tasks_[get_rng_index()]` is outside
the vector, where the source has no defined behaviour. -/
def enqueue (pool : ThreadPool (Work V)) (heap : Heap V) (f : Callable V V) :
    Option (Except Exn Nat × ThreadPool (Work V) × Heap V) :=
  if pool.stop_flag_ then some (Except.error stopped_error, pool, heap)
  else
    let task_ptr : packaged_task V := { fn := f, state := heap.length }
    let heap1 := heap ++ [none]
    let res := task_ptr.state
    let (index, pool1) := get_rng_index pool
    match pool1.tasks_[index]? with
    | none => none
    | some deque =>
      some (Except.ok res,
        { pool1 with tasks_ := pool1.tasks_.set index (ThreadSafeDeque.enqueue deque task_ptr.invoke) },
        heap1)

/-- The lambda `task_wrapper` of `continue_with`: `T result = fut.get();
return cont(result);`.  It blocks while the antecedent is not ready and lets
the antecedent's exception through. -/
def task_wrapper (future : Nat) (continuation : V → Except Exn V) : Callable V V :=
  fun h =>
    match future_get h future with
    | none => none
    | some (Except.error e) => some (Except.error e, h)
    | some (Except.ok result) => some (continuation result, h)

/-- A callable returning `void` handed to `enqueue`: the shared state that
`enqueue` makes for it stores `default` in place of a value. -/
def void_callable [Inhabited V] (c : Callable V Unit) : Callable V V :=
  fun h =>
    match c h with
    | none => none
    | some (r, h') => some (r.map (fun _ => default), h')

/-- `ThreadPool::continue_with(future, continuation)`: `task_wrapper` is
wrapped in a packaged task whose future is returned, and the lambda
`[packagedTask] { (*packagedTask)(); }` goes through `enqueue` (the future
`enqueue` returns for it is dropped). -/
def continue_with [Inhabited V] (pool : ThreadPool (Work V)) (heap : Heap V) (future : Nat)
    (continuation : V → Except Exn V) :
    Option (Except Exn Nat × ThreadPool (Work V) × Heap V) :=
  let packagedTask : packaged_task V :=
    { fn := task_wrapper future continuation, state := heap.length }
  let heap1 := heap ++ [none]
  let resultFuture := packagedTask.state
  match enqueue pool heap1 (void_callable packagedTask.invoke) with
  | none => none
  | some (Except.error e, pool', heap') => some (Except.error e, pool', heap')
  | some (Except.ok _, pool', heap') => some (Except.ok resultFuture, pool', heap')

end ThreadPool

/-! ## ThreadPool.cpp: worker_thread -/

namespace ThreadPool

variable {T : Type}

/-- The `for (size_t i = 0; i < workers_size; ++i)` loop of the WorkStealing
branch with `n` passes left: a random index, `dequeue_top` on that queue, and
`break` on the first task found.  `none` when the index is outside `tasks_`. -/
def steal_loop : Nat → ThreadPool T → Option (Option T × ThreadPool T)
  | 0, pool => some (none, pool)
  | n + 1, pool =>
    let victim := get_rng_index pool
    match victim.2.tasks_[victim.1]? with
    | none => none
    | some deque =>
      let opt_task_steal := (dequeue_top deque).1
      let pool1 : ThreadPool T :=
        { victim.2 with tasks_ := victim.2.tasks_.set victim.1 (dequeue_top deque).2 }
      match opt_task_steal with
      | some task => some (some task, pool1)
      | none => steal_loop n pool1

/-- The body of the `while` loop of `worker_thread(index)` up to the point
where `found` and `task` are known: the thread's own queue first, then the
branch of the strategy.  The result is the task found (if any), the pool and
the thread's `thread_local` objects; `none` when the pass does not get there
(an index outside `tasks_`, or `balance_queues` not returning). -/
def worker_iteration (strategy : Strategy) (pool : ThreadPool T) (index : Nat)
    (tl : ThreadLocal) : Option (Option T × ThreadPool T × ThreadLocal) :=
  match pool.tasks_[index]? with
  | none => none
  | some own =>
    let opt_task := (dequeue own).1
    let pool1 : ThreadPool T := { pool with tasks_ := pool.tasks_.set index (dequeue own).2 }
    match opt_task with
    | some task => some (some task, pool1, tl)
    | none =>
      match strategy with
      | Strategy.WorkSharing =>
        let own_queue_size := size (dequeue own).2
        let should_rebalance := get_random_with_probability tl own_queue_size
        if should_rebalance.1 then
          let victim := get_rng_index pool1
          if victim.1 ≠ index then
            match balance_queues victim.2 index victim.1 with
            | none => none
            | some pool2 => some (none, pool2, should_rebalance.2)
          else some (none, victim.2, should_rebalance.2)
        else some (none, pool1, should_rebalance.2)
      | Strategy.WorkStealing =>
        let workers_size := pool1.workers_size_
        match steal_loop workers_size pool1 with
        | none => none
        | some (found, pool2) => some (found, pool2, tl)

/-- All units of work queued in the pool, as a multiset. -/
def queued (pool : ThreadPool T) : Multiset T := (pool.tasks_.flatten : List T)

/-- The indices that the next `n` calls of `get_rng_index` on the pool return,
in call order. -/
def random_picks (pool : ThreadPool T) (n : Nat) : List Nat :=
  (List.range n).map fun k =>
    uniform_int_distribution 0 (usize_sub pool.workers_size_ 1) (pool.rng k)

/-- Written after the claim on the steal path, not after the source: the first
of the next `n` random picks whose queue holds work, if there is one. -/
def first_nonempty_pick (pool : ThreadPool T) (n : Nat) : Option Nat :=
  (random_picks pool n).find? fun v => !((pool.tasks_[v]?).getD []).isEmpty

end ThreadPool

/-! ## The pool at work: threads taking turns -/

/-- The pool together with the shared states of the futures and the
`thread_local` objects of each worker thread. -/
structure System (V : Type) where
  pool : ThreadPool (Work V)
  heap : Heap V
  locals : Nat → ThreadLocal

section Scheduling

variable {V : Type}

/-- One pass of worker thread `index` through `while (!stop_flag_.test())`:
with the flag set the thread has left the loop; otherwise `worker_iteration`,
then `task()` when a task was found and the sleep when not.  `none` when the
pass does not end (the task blocks) or an exception leaves the thread
function. -/
def worker_thread_pass (strategy : Strategy) (sys : System V) (index : Nat) :
    Option (System V) :=
  if sys.pool.stop_flag_ then some sys
  else
    match ThreadPool.worker_iteration strategy sys.pool index (sys.locals index) with
    | none => none
    | some (none, pool', tl') =>
      some { pool := pool', heap := sys.heap, locals := Function.update sys.locals index tl' }
    | some (some task, pool', tl') =>
      match task sys.heap with
      | some (Except.ok (), heap') =>
        some { pool := pool', heap := heap', locals := Function.update sys.locals index tl' }
      | _ => none

/-- The worker threads named in `schedule` make one pass each, in that order. -/
def run_schedule (strategy : Strategy) : List Nat → System V → Option (System V)
  | [], sys => some sys
  | index :: rest, sys =>
    match worker_thread_pass strategy sys index with
    | none => none
    | some sys' => run_schedule strategy rest sys'

/-- Every worker thread makes one pass, in index order. -/
def round (strategy : Strategy) (sys : System V) : Option (System V) :=
  run_schedule strategy (List.range sys.pool.workers_size_) sys

/-- `future.get()` called by the submitting thread: while the shared state is
not ready the caller is blocked and the worker threads go on, one round after
the other; `patience` bounds the number of rounds waited for. -/
def future_wait (strategy : Strategy) : Nat → System V → Nat → Option (Except Exn V × System V)
  | 0, sys, future =>
    match future_get sys.heap future with
    | some r => some (r, sys)
    | none => none
  | patience + 1, sys, future =>
    match future_get sys.heap future with
    | some r => some (r, sys)
    | none =>
      match round strategy sys with
      | none => none
      | some sys' => future_wait strategy patience sys' future

end Scheduling

/-! ## tests.cpp: test_high_volume -/

/-- First loop of `test_high_volume`, `n` submissions:
`results.push_back(pool.enqueue([i]() { return i; }))` for `i = 0 .. n - 1`.
After submission `i` the worker threads named in `schedule i` make a pass each
before the next submission.  The result is the vector of futures. -/
def submit_loop (strategy : Strategy) (schedule : Nat → List Nat) :
    Nat → System Nat → Option (List Nat × System Nat)
  | 0, sys => some ([], sys)
  | i + 1, sys =>
    match submit_loop strategy schedule i sys with
    | none => none
    | some (results, sys1) =>
      match ThreadPool.enqueue sys1.pool sys1.heap (pure_callable fun _ => Except.ok i) with
      | some (Except.ok res, pool', heap') =>
        match run_schedule strategy (schedule i)
            { pool := pool', heap := heap', locals := sys1.locals } with
        | none => none
        | some sys2 => some (results ++ [res], sys2)
      | _ => none

/-- Second loop of `test_high_volume`: `sum += result.get()` over the futures,
returning the values retrieved and the sum. -/
def collect_loop (strategy : Strategy) (patience : Nat) :
    List Nat → System Nat → List Nat × Nat → Option (List Nat × Nat)
  | [], _, acc => some acc
  | result :: rest, sys, acc =>
    match future_wait strategy patience sys result with
    | some (Except.ok value, sys') =>
      collect_loop strategy patience rest sys' (acc.1 ++ [value], acc.2 + value)
    | _ => none

/-- `test_high_volume(ThreadPool<strategy>(threads))` with `N` submissions in
place of the test's 1000: the values retrieved from the futures, in order, and
their sum (which the test compares with 499500). -/
def test_high_volume (strategy : Strategy) (threads : Nat) (seed : Nat → Nat)
    (locals : Nat → ThreadLocal) (N : Nat) (schedule : Nat → List Nat) (patience : Nat) :
    Option (List Nat × Nat) :=
  match (ThreadPool.construct threads seed : Except Exn (ThreadPool (Work Nat))) with
  | Except.error _ => none
  | Except.ok pool =>
    match submit_loop strategy schedule N { pool := pool, heap := [], locals := locals } with
    | none => none
    | some (results, sys) => collect_loop strategy patience results sys ([], 0)

/-! ## Invariant of the high-volume run -/

/-- The unit of work queued by submission `i` of `test_high_volume` on a heap
that was empty at the start: the packaged task around `[i]() { return i; }`,
its shared state at address `i`. -/
def high_volume_work (i : Nat) : Work Nat :=
  packaged_task.invoke { fn := pure_callable fun _ => Except.ok i, state := i }

/-- Addresses of the shared states that are not ready. -/
def pending {V : Type} (heap : Heap V) : List Nat :=
  (List.range heap.length).filter fun i => (future_get heap i).isNone

/-- What holds between the steps of `test_high_volume`: the pool is running
with its `threads` queues, every future is either not ready or holds the index
of its submission, and the units of work in the queues are exactly those of
the futures that are not ready, each once. -/
structure HighVolumeInvariant (threads : Nat) (sys : System Nat) : Prop where
  wf : sys.pool.tasks_.length = sys.pool.workers_size_
  workers : sys.pool.workers_size_ = threads
  running : sys.pool.stop_flag_ = false
  results : ∀ i, i < sys.heap.length →
    sys.heap[i]? = some none ∨ sys.heap[i]? = some (some (Except.ok i))
  queued_eq : ThreadPool.queued sys.pool
    = Multiset.map high_volume_work ((pending sys.heap : List Nat) : Multiset Nat)

/-! ## Theorems -/

section Arithmetic

theorem usize_sub_eq {a b : Nat} (ha : a < SIZE_MOD) (hb : b ≤ a) : usize_sub a b = a - b := by
  unfold usize_sub
  have hb2 : b < SIZE_MOD := lt_of_le_of_lt hb ha
  rw [Nat.mod_eq_of_lt ha, Nat.mod_eq_of_lt hb2]
  have h1 : a + SIZE_MOD - b = (a - b) + SIZE_MOD := by omega
  rw [h1, Nat.add_mod_right]
  exact Nat.mod_eq_of_lt (by omega)

theorem set_of_getElem? {α : Type} (l : List α) (i : Nat) (x : α) (h : l[i]? = some x) :
    l.set i x = l := by
  apply List.ext_getElem?
  intro n
  by_cases hn : i = n
  · subst hn
    obtain ⟨hlt, -⟩ := List.getElem?_eq_some.mp h
    rw [List.getElem?_set_self hlt, h]
  · rw [List.getElem?_set_ne hn]

end Arithmetic

namespace ThreadPool

variable {T : Type}

/-- Closed form of the loop of `balance_queues` started on a larger queue that
is at least as long as the smaller one. -/
theorem balance_loop_eq (larger smaller : ThreadSafeDeque T)
    (hle : smaller.length ≤ larger.length) (hfit : larger.length < SIZE_MOD) :
    balance_loop larger smaller =
      some (larger.drop (if larger.length - smaller.length ≤ 2 then 0
              else (larger.length - smaller.length - 1) / 2),
            smaller ++ larger.take (if larger.length - smaller.length ≤ 2 then 0
              else (larger.length - smaller.length - 1) / 2)) := by
  induction larger generalizing smaller with
  | nil =>
    have hs : smaller = [] := by
      cases smaller with
      | nil => rfl
      | cons a l => simp at hle
    subst hs
    simp [balance_loop, unsafe_size, usize_sub, threshold_]
  | cons task rest ih =>
    have hsub : usize_sub (unsafe_size (task :: rest)) (unsafe_size smaller)
        = (task :: rest).length - smaller.length := usize_sub_eq hfit hle
    rw [balance_loop, hsub]
    simp only [threshold_, List.length_cons] at hle hfit ⊢
    by_cases hd : rest.length + 1 - smaller.length ≤ 2
    · have hnot : ¬ (rest.length + 1 - smaller.length > 2) := by omega
      simp [hnot, hd]
    · have hgt : rest.length + 1 - smaller.length > 2 := by omega
      have hle2 : (unsafe_enqueue smaller task).length ≤ rest.length := by
        simp [unsafe_enqueue]; omega
      rw [if_pos hgt, ih (unsafe_enqueue smaller task) hle2 (by omega)]
      have hlen : (unsafe_enqueue smaller task).length = smaller.length + 1 := by
        simp [unsafe_enqueue]
      rw [hlen, if_neg hd]
      by_cases hd2 : rest.length - (smaller.length + 1) ≤ 2
      · have hk : (rest.length + 1 - smaller.length - 1) / 2 = 1 := by omega
        simp [hd2, hk, unsafe_enqueue]
      · have hk : (rest.length + 1 - smaller.length - 1) / 2
            = (rest.length - (smaller.length + 1) - 1) / 2 + 1 := by omega
        simp [hd2, hk, unsafe_enqueue]

/-- The loop of `balance_queues`, one iteration at a time, written with
`unsafe_dequeue` as in the source. -/
theorem balance_loop_unfold (larger smaller : ThreadSafeDeque T) :
    balance_loop larger smaller =
      if usize_sub (unsafe_size larger) (unsafe_size smaller) > threshold_ then
        match unsafe_dequeue larger with
        | (some task, rest) => balance_loop rest (unsafe_enqueue smaller task)
        | (none, _) => none
      else some (larger, smaller) := by
  cases larger <;> simp [balance_loop, unsafe_dequeue]

/-- Closed form of `balance_queues` on two distinct queues, `L` at index `i`
being at least as long as `S` at index `j`, for both orders of the arguments. -/
theorem balance_queues_eq (pool : ThreadPool T) (i j : Nat) (L S : ThreadSafeDeque T)
    (hL : pool.tasks_[i]? = some L) (hS : pool.tasks_[j]? = some S) (hne : i ≠ j)
    (hle : S.length ≤ L.length) (hfit : L.length < SIZE_MOD)
    (k : Nat) (hk : k = if L.length - S.length ≤ 2 then 0 else (L.length - S.length - 1) / 2) :
    balance_queues pool i j
        = some { pool with tasks_ := (pool.tasks_.set i (L.drop k)).set j (S ++ L.take k) } ∧
    balance_queues pool j i
        = some { pool with tasks_ := (pool.tasks_.set i (L.drop k)).set j (S ++ L.take k) } := by
  have hloop := balance_loop_eq L S hle hfit
  rw [← hk] at hloop
  constructor
  · have hnlt : ¬ (unsafe_size L < unsafe_size S) := by simp only [unsafe_size]; omega
    simp only [balance_queues, if_neg hne, hL, hS, if_neg hnlt, hloop]
  · by_cases hlt : unsafe_size S < unsafe_size L
    · simp only [balance_queues, if_neg (Ne.symm hne), hL, hS, if_pos hlt, hloop]
    · have heq : S.length = L.length := by simp only [unsafe_size] at hlt; omega
      have hk0 : k = 0 := by rw [hk, heq]; simp
      have hloop2 := balance_loop_eq S L (by omega) (by omega)
      have hz : (if S.length - L.length ≤ 2 then 0 else (S.length - L.length - 1) / 2) = 0 := by
        rw [heq]; simp
      rw [hz] at hloop2
      simp only [balance_queues, if_neg (Ne.symm hne), hL, hS, if_neg hlt, hloop2, hk0]
      simp only [List.drop_zero, List.take_zero, List.append_nil]
      rw [List.set_comm _ _ _ (Ne.symm hne)]

/-- Shape of the pool after `balance_queues`, read back at the two indices. -/
theorem balance_queues_read (pool : ThreadPool T) (i j : Nat) (L S L2 S2 : ThreadSafeDeque T)
    (hL : pool.tasks_[i]? = some L) (hS : pool.tasks_[j]? = some S) (hne : i ≠ j) :
    ((pool.tasks_.set i L2).set j S2)[i]? = some L2 ∧
    ((pool.tasks_.set i L2).set j S2)[j]? = some S2 ∧
    (∀ n, n ≠ i → n ≠ j → ((pool.tasks_.set i L2).set j S2)[n]? = pool.tasks_[n]?) := by
  obtain ⟨hi, -⟩ := List.getElem?_eq_some.mp hL
  obtain ⟨hj, -⟩ := List.getElem?_eq_some.mp hS
  refine ⟨?_, ?_, ?_⟩
  · rw [List.getElem?_set_ne (Ne.symm hne), List.getElem?_set_self hi]
  · rw [List.getElem?_set_self (by simpa using hj)]
  · intro n hni hnj
    rw [List.getElem?_set_ne (Ne.symm hnj), List.getElem?_set_ne (Ne.symm hni)]

/-- C1. Balancer invariant: for two distinct queue indices of the pool, in
whichever order they are passed, `balance_queues` returns; afterwards the two
queues differ in length by at most `threshold_ = 2`, and the multiset union of
their contents is the one from before the call. -/
theorem balance_queues_invariant (pool : ThreadPool T) (curr victim : Nat)
    (qc qv : ThreadSafeDeque T)
    (hc : pool.tasks_[curr]? = some qc) (hv : pool.tasks_[victim]? = some qv)
    (hne : curr ≠ victim)
    (hfc : unsafe_size qc < SIZE_MOD) (hfv : unsafe_size qv < SIZE_MOD) :
    ∃ (pool' : ThreadPool T) (qc' qv' : ThreadSafeDeque T),
      balance_queues pool curr victim = some pool' ∧
      pool'.tasks_[curr]? = some qc' ∧ pool'.tasks_[victim]? = some qv' ∧
      unsafe_size qc' ≤ unsafe_size qv' + threshold_ ∧
      unsafe_size qv' ≤ unsafe_size qc' + threshold_ ∧
      (qc' : Multiset T) + (qv' : Multiset T) = (qc : Multiset T) + (qv : Multiset T) := by
  simp only [unsafe_size] at hfc hfv
  by_cases hle : qv.length ≤ qc.length
  · obtain ⟨h1, -⟩ := balance_queues_eq pool curr victim qc qv hc hv hne hle hfc _ rfl
    obtain ⟨r1, r2, -⟩ := balance_queues_read pool curr victim qc qv
      (qc.drop (if qc.length - qv.length ≤ 2 then 0 else (qc.length - qv.length - 1) / 2))
      (qv ++ qc.take (if qc.length - qv.length ≤ 2 then 0 else (qc.length - qv.length - 1) / 2))
      hc hv hne
    refine ⟨_, _, _, h1, r1, r2, ?_, ?_, ?_⟩
    · simp only [unsafe_size, threshold_, List.length_drop, List.length_append, List.length_take]
      split_ifs <;> omega
    · simp only [unsafe_size, threshold_, List.length_drop, List.length_append, List.length_take]
      split_ifs <;> omega
    · rw [Multiset.coe_add, Multiset.coe_add, Multiset.coe_eq_coe]
      generalize (if qc.length - qv.length ≤ 2 then 0 else (qc.length - qv.length - 1) / 2) = k
      calc List.drop k qc ++ (qv ++ List.take k qc)
          |>.Perm ((qv ++ List.take k qc) ++ List.drop k qc) := List.perm_append_comm
        _ = qv ++ qc := by rw [List.append_assoc, List.take_append_drop]
        _ |>.Perm (qc ++ qv) := List.perm_append_comm
  · have hle2 : qc.length ≤ qv.length := by omega
    obtain ⟨-, h1⟩ := balance_queues_eq pool victim curr qv qc hv hc (Ne.symm hne) hle2 hfv _ rfl
    obtain ⟨r1, r2, -⟩ := balance_queues_read pool victim curr qv qc
      (qv.drop (if qv.length - qc.length ≤ 2 then 0 else (qv.length - qc.length - 1) / 2))
      (qc ++ qv.take (if qv.length - qc.length ≤ 2 then 0 else (qv.length - qc.length - 1) / 2))
      hv hc (Ne.symm hne)
    refine ⟨_, _, _, h1, r2, r1, ?_, ?_, ?_⟩
    · simp only [unsafe_size, threshold_, List.length_drop, List.length_append, List.length_take]
      split_ifs <;> omega
    · simp only [unsafe_size, threshold_, List.length_drop, List.length_append, List.length_take]
      split_ifs <;> omega
    · rw [Multiset.coe_add, Multiset.coe_add, Multiset.coe_eq_coe]
      generalize (if qv.length - qc.length ≤ 2 then 0 else (qv.length - qc.length - 1) / 2) = k
      rw [List.append_assoc, List.take_append_drop]

/-- Witness of C1: five units against an empty queue. -/
theorem balance_queues_invariant_witness :
    ([[1, 2, 3, 4, 5], []] : List (ThreadSafeDeque Nat))[0]? = some [1, 2, 3, 4, 5] ∧
    ([[1, 2, 3, 4, 5], []] : List (ThreadSafeDeque Nat))[1]? = some [] ∧
    ∃ (pool' : ThreadPool Nat) (qc' qv' : ThreadSafeDeque Nat),
      balance_queues ⟨2, [[1, 2, 3, 4, 5], []], false, fun _ => 0⟩ 0 1 = some pool' ∧
      pool'.tasks_[0]? = some qc' ∧ pool'.tasks_[1]? = some qv' ∧
      unsafe_size qc' ≤ unsafe_size qv' + threshold_ ∧
      unsafe_size qv' ≤ unsafe_size qc' + threshold_ ∧
      (qc' : Multiset Nat) + (qv' : Multiset Nat)
        = (([1, 2, 3, 4, 5] : List Nat) : Multiset Nat) + (([] : List Nat) : Multiset Nat) :=
  ⟨rfl, rfl, balance_queues_invariant ⟨2, [[1, 2, 3, 4, 5], []], false, fun _ => 0⟩ 0 1
    [1, 2, 3, 4, 5] [] rfl rfl (by decide) (by decide) (by decide)⟩

/-- C10. Exact effect of `balance_queues` on two distinct queues, `L` at index
`i` at least as long as `S` at index `j`, with `d = |L| - |S|`, for both orders
of the arguments: when `d ≤ 2` the pool is returned unchanged; when `d > 2`
exactly `k = (d - 1) / 2` elements leave the head of `L` and are appended, in
the same order, to the tail of `S`, no other queue changes, and `L` stays at
least as long as `S`. -/
theorem balance_queues_exact (pool : ThreadPool T) (i j : Nat) (L S : ThreadSafeDeque T)
    (hL : pool.tasks_[i]? = some L) (hS : pool.tasks_[j]? = some S) (hne : i ≠ j)
    (hle : unsafe_size S ≤ unsafe_size L) (hfit : unsafe_size L < SIZE_MOD) :
    (unsafe_size L - unsafe_size S ≤ 2 →
      balance_queues pool i j = some pool ∧ balance_queues pool j i = some pool) ∧
    (unsafe_size L - unsafe_size S > 2 →
      ∃ pool' : ThreadPool T,
        balance_queues pool i j = some pool' ∧ balance_queues pool j i = some pool' ∧
        pool'.tasks_[i]? = some (L.drop ((unsafe_size L - unsafe_size S - 1) / 2)) ∧
        pool'.tasks_[j]? = some (S ++ L.take ((unsafe_size L - unsafe_size S - 1) / 2)) ∧
        (∀ n, n ≠ i → n ≠ j → pool'.tasks_[n]? = pool.tasks_[n]?) ∧
        pool'.tasks_.length = pool.tasks_.length ∧
        (L.take ((unsafe_size L - unsafe_size S - 1) / 2)).length
          = (unsafe_size L - unsafe_size S - 1) / 2 ∧
        unsafe_size (S ++ L.take ((unsafe_size L - unsafe_size S - 1) / 2))
          ≤ unsafe_size (L.drop ((unsafe_size L - unsafe_size S - 1) / 2))) := by
  simp only [unsafe_size] at hle hfit ⊢
  constructor
  · intro hd
    have h := balance_queues_eq pool i j L S hL hS hne hle hfit 0 (by rw [if_pos hd])
    simp only [List.drop_zero, List.take_zero, List.append_nil] at h
    rw [set_of_getElem? _ _ _ hL, set_of_getElem? _ _ _ hS] at h
    exact h
  · intro hd
    have h := balance_queues_eq pool i j L S hL hS hne hle hfit
      ((L.length - S.length - 1) / 2) (by rw [if_neg (by omega)])
    obtain ⟨r1, r2, r3⟩ := balance_queues_read pool i j L S
      (L.drop ((L.length - S.length - 1) / 2)) (S ++ L.take ((L.length - S.length - 1) / 2))
      hL hS hne
    refine ⟨_, h.1, h.2, r1, r2, r3, ?_, ?_, ?_⟩
    · simp
    · simp only [List.length_take]; omega
    · simp only [List.length_append, List.length_take, List.length_drop]; omega

/-- Witness of C10: seven units against one, `d = 6`, so two
units move. -/
theorem balance_queues_exact_witness :
    ([[1, 2, 3, 4, 5, 6, 7], [8]] : List (ThreadSafeDeque Nat))[0]? = some [1, 2, 3, 4, 5, 6, 7] ∧
    ([[1, 2, 3, 4, 5, 6, 7], [8]] : List (ThreadSafeDeque Nat))[1]? = some [8] ∧
    ((0 : Nat) ≠ 1) ∧
    unsafe_size ([8] : ThreadSafeDeque Nat) ≤ unsafe_size ([1, 2, 3, 4, 5, 6, 7] : ThreadSafeDeque Nat) ∧
    unsafe_size ([1, 2, 3, 4, 5, 6, 7] : ThreadSafeDeque Nat) < SIZE_MOD ∧
    unsafe_size ([1, 2, 3, 4, 5, 6, 7] : ThreadSafeDeque Nat) - unsafe_size ([8] : ThreadSafeDeque Nat) > 2 ∧
    ∃ pool' : ThreadPool Nat,
      balance_queues ⟨2, [[1, 2, 3, 4, 5, 6, 7], [8]], false, fun _ => 0⟩ 0 1 = some pool' ∧
      balance_queues ⟨2, [[1, 2, 3, 4, 5, 6, 7], [8]], false, fun _ => 0⟩ 1 0 = some pool' ∧
      pool'.tasks_[0]? = some [3, 4, 5, 6, 7] ∧
      pool'.tasks_[1]? = some [8, 1, 2] ∧
      (∀ n, n ≠ 0 → n ≠ 1 → pool'.tasks_[n]? = ([[1, 2, 3, 4, 5, 6, 7], [8]] : List (List Nat))[n]?) ∧
      pool'.tasks_.length = 2 ∧
      ([1, 2] : List Nat).length = 2 ∧
      unsafe_size ([8, 1, 2] : ThreadSafeDeque Nat) ≤ unsafe_size ([3, 4, 5, 6, 7] : ThreadSafeDeque Nat) :=
  ⟨rfl, rfl, by decide, by decide, by decide, by decide,
    (balance_queues_exact ⟨2, [[1, 2, 3, 4, 5, 6, 7], [8]], false, fun _ => 0⟩ 0 1
      [1, 2, 3, 4, 5, 6, 7] [8] rfl rfl (by decide) (by decide) (by decide)).2 (by decide)⟩

end ThreadPool

/-! ### Task queue -/

namespace ThreadSafeDeque

variable {T : Type}

theorem enqueue_all_eq (deque : ThreadSafeDeque T) (values : List T) :
    enqueue_all deque values = deque ++ values := by
  induction values generalizing deque with
  | nil => simp [enqueue_all]
  | cons x xs ih =>
    have h := ih (enqueue deque x)
    simp only [enqueue_all, List.foldl_cons] at h ⊢
    rw [h]
    simp [enqueue, unsafe_enqueue]

theorem dequeue_times_eq (values : List T) :
    dequeue_times (values.length + 1) values = (values.map some ++ [none], []) := by
  induction values with
  | nil => simp [dequeue_times, dequeue, unsafe_dequeue]
  | cons x xs ih =>
    rw [List.length_cons, dequeue_times]
    simp only [dequeue, unsafe_dequeue]
    rw [ih]
    simp

/-- C2. Task queue FIFO: `enqueue` appends at the tail, `dequeue` removes and
returns the head, `dequeue` on an empty queue returns the empty optional and
leaves the queue empty; so enqueueing `x1..xn` into an empty queue and calling
`dequeue` `n + 1` times returns `x1, ..., xn` in insertion order followed by the
empty optional. -/
theorem deque_fifo (values : List T) :
    (∀ (deque : ThreadSafeDeque T) (x : T), enqueue deque x = deque ++ [x]) ∧
    (∀ (x : T) (rest : ThreadSafeDeque T), dequeue (x :: rest) = (some x, rest)) ∧
    dequeue ([] : ThreadSafeDeque T) = (none, []) ∧
    dequeue_times (values.length + 1) (enqueue_all [] values)
      = (values.map some ++ [none], []) := by
  refine ⟨fun _ _ => rfl, fun _ _ => rfl, rfl, ?_⟩
  rw [enqueue_all_eq, List.nil_append, dequeue_times_eq]

/-- C9. `dequeue_top` behaves exactly as `dequeue`: on every queue state both
return the same result (the head, or the empty optional on an empty queue) and
leave the same queue behind. -/
theorem dequeue_top_eq_dequeue (deque : ThreadSafeDeque T) :
    dequeue_top deque = dequeue deque ∧
    (dequeue_top deque).1 = deque.head? ∧ (dequeue_top deque).2 = deque.tail := by
  cases deque <;> exact ⟨rfl, rfl, rfl⟩

end ThreadSafeDeque

/-! ### Scheduler (enqueue path) and construction -/

namespace ThreadPool

variable {T V : Type}

theorem usize_sub_one_lt {w : Nat} (hw : 0 < w) : usize_sub w 1 < w := by
  unfold usize_sub SIZE_MOD
  norm_num
  omega

theorem uniform_int_distribution_le (b g : Nat) : uniform_int_distribution 0 b g ≤ b := by
  unfold uniform_int_distribution
  have := Nat.mod_lt g (show 0 < b - 0 + 1 by omega)
  omega

theorem get_rng_index_lt (pool : ThreadPool T) (hw : 0 < pool.workers_size_) :
    (get_rng_index pool).1 < pool.workers_size_ := by
  have h1 := uniform_int_distribution_le (usize_sub pool.workers_size_ 1) (pool.rng 0)
  have h2 := usize_sub_one_lt hw
  simp only [get_rng_index]
  omega

theorem get_rng_index_tasks (pool : ThreadPool T) :
    (get_rng_index pool).2.tasks_ = pool.tasks_ ∧
    (get_rng_index pool).2.workers_size_ = pool.workers_size_ ∧
    (get_rng_index pool).2.stop_flag_ = pool.stop_flag_ := ⟨rfl, rfl, rfl⟩

theorem enqueue_unfold (pool : ThreadPool (Work V)) (heap : Heap V) (f : Callable V V) :
    enqueue pool heap f =
      if pool.stop_flag_ then some (Except.error stopped_error, pool, heap)
      else
        match pool.tasks_[(get_rng_index pool).1]? with
        | none => none
        | some deque =>
          some (Except.ok heap.length,
            { (get_rng_index pool).2 with
              tasks_ := pool.tasks_.set (get_rng_index pool).1
                (deque ++ [packaged_task.invoke { fn := f, state := heap.length }]) },
            heap ++ [none]) := rfl

/-- C3. `enqueue` on a pool whose queue vector has `workers_size_` entries:
it throws the "enqueue on stopped ThreadPool" error exactly when the stop flag
is set; whenever it throws, the pool (hence every queue) and the shared states
are as before; whenever it returns, exactly one unit of work was appended to
the tail of one queue, whose index is below the worker count, and no other
queue changed; and with the flag clear and at least one worker it does
return. -/
theorem enqueue_contract (pool : ThreadPool (Work V)) (heap : Heap V) (f : Callable V V)
    (hwf : pool.tasks_.length = pool.workers_size_) :
    ((∃ p h, enqueue pool heap f = some (Except.error stopped_error, p, h))
        ↔ pool.stop_flag_ = true) ∧
    (∀ e p h, enqueue pool heap f = some (Except.error e, p, h) →
        e = stopped_error ∧ p = pool ∧ h = heap) ∧
    (∀ res p h, enqueue pool heap f = some (Except.ok res, p, h) →
        ∃ (index : Nat) (deque : ThreadSafeDeque (Work V)) (work : Work V),
          index < pool.workers_size_ ∧ pool.tasks_[index]? = some deque ∧
          p.tasks_ = pool.tasks_.set index (deque ++ [work])) ∧
    (pool.stop_flag_ = false → 0 < pool.workers_size_ →
        ∃ res p h, enqueue pool heap f = some (Except.ok res, p, h)) := by
  cases hstop : pool.stop_flag_ with
  | true =>
    have he : enqueue pool heap f = some (Except.error stopped_error, pool, heap) := by
      simp [enqueue, hstop]
    refine ⟨⟨fun _ => rfl, fun _ => ⟨pool, heap, he⟩⟩, ?_, ?_, ?_⟩
    · intro e p h hep
      rw [he] at hep
      simp only [Option.some.injEq, Prod.mk.injEq, Except.error.injEq] at hep
      exact ⟨hep.1.symm, hep.2.1.symm, hep.2.2.symm⟩
    · intro res p h hep
      rw [he] at hep
      simp at hep
    · intro h
      cases h
  | false =>
    cases hq : pool.tasks_[(get_rng_index pool).1]? with
    | none =>
      have he : enqueue pool heap f = none := by
        rw [enqueue_unfold, hstop, hq]
        rfl
      refine ⟨⟨fun ⟨p, h, hep⟩ => (by rw [he] at hep; cases hep), fun h => (by cases h)⟩, ?_, ?_, ?_⟩
      · intro e p h hep
        rw [he] at hep
        cases hep
      · intro res p h hep
        rw [he] at hep
        cases hep
      · intro _ hw
        have hlt := get_rng_index_lt pool hw
        rw [← hwf] at hlt
        rw [List.getElem?_eq_none_iff] at hq
        omega
    | some deque =>
      have he : enqueue pool heap f = some (Except.ok heap.length,
          { (get_rng_index pool).2 with
            tasks_ := pool.tasks_.set (get_rng_index pool).1
              (deque ++ [packaged_task.invoke { fn := f, state := heap.length }]) },
          heap ++ [none]) := by
        simp only [enqueue, hstop]
        simp [get_rng_index] at hq ⊢
        simp [hq, ThreadSafeDeque.enqueue, unsafe_enqueue]
      refine ⟨⟨fun ⟨p, h, hep⟩ => (by rw [he] at hep; simp at hep), fun h => (by cases h)⟩, ?_, ?_, ?_⟩
      · intro e p h hep
        rw [he] at hep
        simp at hep
      · intro res p h hep
        rw [he] at hep
        simp only [Option.some.injEq, Prod.mk.injEq, Except.ok.injEq] at hep
        obtain ⟨hlt, -⟩ := List.getElem?_eq_some.mp hq
        refine ⟨(get_rng_index pool).1, deque,
          packaged_task.invoke { fn := f, state := heap.length }, by omega, hq, ?_⟩
        rw [← hep.2.1]
      · intro _ _
        exact ⟨_, _, _, he⟩

/-- Witness of C3: a running pool of one worker accepts a unit
of work. -/
theorem enqueue_contract_witness :
    ([[]] : List (ThreadSafeDeque (Work Nat))).length = 1 ∧
    ∃ res p h, enqueue (⟨1, [[]], false, fun _ => 0⟩ : ThreadPool (Work Nat)) []
      (pure_callable fun _ => Except.ok 7) = some (Except.ok res, p, h) :=
  ⟨rfl, (enqueue_contract (⟨1, [[]], false, fun _ => 0⟩ : ThreadPool (Work Nat)) []
    (pure_callable fun _ => Except.ok 7) rfl).2.2.2 rfl (by decide)⟩

/-- C7, as the source has it: the constructor called with `threads = 0` does
not fail; it returns a pool without queues. -/
theorem zero_threads_construct_returns :
    (construct 0 (fun _ => 0) : Except Exn (ThreadPool (Work Nat)))
      = Except.ok { workers_size_ := 0, tasks_ := [], stop_flag_ := false, rng := fun _ => 0 } ∧
    ¬ ∃ e : Exn,
      (construct 0 (fun _ => 0) : Except Exn (ThreadPool (Work Nat))) = Except.error e := by
  refine ⟨rfl, ?_⟩
  rintro ⟨e, h⟩
  cases h

/-- C7, amended. Constructing a pool with `threads = 0` does not fail: the
constructor returns a pool handle, for a pool with a worker count of zero, the
stop flag clear and no queue at all, so that no index addresses a queue of
it. -/
theorem construct_zero (seed : Nat → Nat) :
    ∃ pool : ThreadPool T,
      construct 0 seed = Except.ok pool ∧
      pool.workers_size_ = 0 ∧ pool.tasks_ = [] ∧ pool.stop_flag_ = false ∧
      ∀ index : Nat, pool.tasks_[index]? = none :=
  ⟨_, rfl, rfl, rfl, rfl, fun _ => rfl⟩

/-- The constructor builds as many queues as it records workers, all empty. -/
theorem construct_wf (threads : Nat) (seed : Nat → Nat) :
    ∃ pool : ThreadPool T,
      construct threads seed = Except.ok pool ∧
      pool.tasks_.length = pool.workers_size_ ∧ pool.workers_size_ = threads ∧
      pool.stop_flag_ = false ∧ ∀ q ∈ pool.tasks_, q = [] :=
  ⟨_, rfl, by simp, rfl, rfl, fun q hq => (List.mem_replicate.mp hq).2⟩

/-- On a pool without workers whose stop flag is clear, `enqueue` has no
result: the index it draws lies outside the empty queue vector. -/
theorem enqueue_zero_workers (pool : ThreadPool (Work V)) (heap : Heap V) (f : Callable V V)
    (ht : pool.tasks_ = []) (hstop : pool.stop_flag_ = false) :
    enqueue pool heap f = none := by
  rw [enqueue_unfold, hstop, ht]
  rfl

end ThreadPool

/-! ### Future / continuation bridge -/

section Futures

variable {V : Type}

theorem future_get_set (heap : Heap V) (st : Nat) (r : Except Exn V) (hst : st < heap.length) :
    future_get (heap.set st (some r)) st = some r := by
  simp [future_get, List.getElem?_set_self hst]

theorem future_get_set_ne (heap : Heap V) (st n : Nat) (r : SharedState V) (hne : st ≠ n) :
    future_get (heap.set st r) n = future_get heap n := by
  simp [future_get, List.getElem?_set_ne hne]

theorem lt_length_of_getElem? {α : Type} {l : List α} {i : Nat} {x : α} (h : l[i]? = some x) :
    i < l.length := (List.getElem?_eq_some.mp h).1

/-- Invoking a packaged task whose shared state is not ready and whose stored
callable finishes: the call returns normally and the shared state holds what
the callable returned or threw. -/
theorem invoke_not_ready (task : packaged_task V) (heap heap' : Heap V) (r : Except Exn V)
    (hst : heap[task.state]? = some none) (hfn : task.fn heap = some (r, heap')) :
    task.invoke heap = some (Except.ok (), heap'.set task.state (some r)) := by
  simp [packaged_task.invoke, hst, hfn]

/-- Running the unit of work that `enqueue` queues for a callable without
effect on the shared states. -/
theorem invoke_pure (g : Unit → Except Exn V) (st : Nat) (heap : Heap V)
    (hst : heap[st]? = some none) :
    packaged_task.invoke { fn := pure_callable g, state := st } heap
      = some (Except.ok (), heap.set st (some (g ()))) :=
  invoke_not_ready _ heap heap (g ()) hst rfl

end Futures

namespace ThreadPool

variable {V : Type}

/-- What `enqueue` returns on a running pool that has at least one worker. -/
theorem enqueue_running (pool : ThreadPool (Work V)) (heap : Heap V) (f : Callable V V)
    (hwf : pool.tasks_.length = pool.workers_size_)
    (hstop : pool.stop_flag_ = false) (hw : 0 < pool.workers_size_) :
    ∃ deque : ThreadSafeDeque (Work V),
      pool.tasks_[(get_rng_index pool).1]? = some deque ∧
      (get_rng_index pool).1 < pool.workers_size_ ∧
      enqueue pool heap f = some (Except.ok heap.length,
        { (get_rng_index pool).2 with
          tasks_ := pool.tasks_.set (get_rng_index pool).1
            (deque ++ [packaged_task.invoke { fn := f, state := heap.length }]) },
        heap ++ [none]) := by
  have hlt := get_rng_index_lt pool hw
  have hlt2 : (get_rng_index pool).1 < pool.tasks_.length := by omega
  refine ⟨pool.tasks_[(get_rng_index pool).1], List.getElem?_eq_getElem hlt2, hlt, ?_⟩
  rw [enqueue_unfold, hstop, List.getElem?_eq_getElem hlt2]
  rfl

/-- What a returning call of `enqueue` did. -/
theorem enqueue_ok_inv (pool pool' : ThreadPool (Work V)) (heap heap' : Heap V)
    (f : Callable V V) (future : Nat)
    (h : enqueue pool heap f = some (Except.ok future, pool', heap')) :
    ∃ deque : ThreadSafeDeque (Work V),
      pool.tasks_[(get_rng_index pool).1]? = some deque ∧
      future = heap.length ∧ heap' = heap ++ [none] ∧
      pool'.tasks_ = pool.tasks_.set (get_rng_index pool).1
        (deque ++ [packaged_task.invoke { fn := f, state := heap.length }]) ∧
      pool'.workers_size_ = pool.workers_size_ ∧ pool'.stop_flag_ = pool.stop_flag_ ∧
      pool.stop_flag_ = false := by
  rw [enqueue_unfold] at h
  cases hstop : pool.stop_flag_ with
  | true =>
    rw [hstop] at h
    simp at h
  | false =>
    rw [hstop] at h
    cases hq : pool.tasks_[(get_rng_index pool).1]? with
    | none =>
      rw [hq] at h
      simp at h
    | some deque =>
      rw [hq] at h
      simp only [Bool.false_eq_true, if_false, Option.some.injEq, Prod.mk.injEq,
        Except.ok.injEq] at h
      obtain ⟨h1, h2, h3⟩ := h
      refine ⟨deque, rfl, h1.symm, h3.symm, ?_, ?_, ?_, rfl⟩
      · rw [← h2]
      · rw [← h2]; rfl
      · rw [← h2]; exact hstop

/-- C6. A computation submitted with `enqueue` that raises the failure `e`
when executed: the unit of work queued for it, run by a worker while its future
is not yet ready, returns normally to the worker loop (it raises nothing), and
afterwards retrieving the future re-raises exactly `e`, never a value. -/
theorem enqueue_failure_propagates (pool pool' : ThreadPool (Work V)) (heap heap' : Heap V)
    (f : Callable V V) (e : Exn) (future : Nat)
    (hsub : enqueue pool heap f = some (Except.ok future, pool', heap')) :
    ∃ (index : Nat) (deque : ThreadSafeDeque (Work V)) (work : Work V),
      pool.tasks_[index]? = some deque ∧
      pool'.tasks_ = pool.tasks_.set index (deque ++ [work]) ∧
      heap'[future]? = some none ∧
      ∀ h h' : Heap V, h[future]? = some none → f h = some (Except.error e, h') →
        future < h'.length →
        work h = some (Except.ok (), h'.set future (some (Except.error e))) ∧
        future_get (h'.set future (some (Except.error e))) future = some (Except.error e) ∧
        ∀ v : V, future_get (h'.set future (some (Except.error e))) future
          ≠ some (Except.ok v) := by
  obtain ⟨deque, hq, hfut, hheap, ht, -, -, -⟩ := enqueue_ok_inv pool pool' heap heap' f future hsub
  subst hfut
  subst hheap
  refine ⟨(get_rng_index pool).1, deque, _, hq, ht, by simp, ?_⟩
  intro h h' hh hf hlt
  have hrun := invoke_not_ready { fn := f, state := heap.length } h h' (Except.error e) hh hf
  have hget := future_get_set h' heap.length (Except.error e) hlt
  refine ⟨hrun, hget, ?_⟩
  intro v hv
  rw [hget] at hv
  cases hv

/-- Witness of C6: the failing task of the test `ExceptionTask` on a pool of
one worker. -/
theorem enqueue_failure_propagates_witness :
    ∃ (work : Work Unit) (pool' : ThreadPool (Work Unit)),
      enqueue (⟨1, [[]], false, fun _ => 0⟩ : ThreadPool (Work Unit)) []
          (pure_callable fun _ => Except.error ⟨"std::runtime_error", "Test exception"⟩)
        = some (Except.ok 0, pool', [none]) ∧
      pool'.tasks_ = [[work]] ∧
      work [none] = some (Except.ok (),
        [some (Except.error ⟨"std::runtime_error", "Test exception"⟩)]) ∧
      future_get [some (Except.error ⟨"std::runtime_error", "Test exception"⟩)] 0
        = some (Except.error ⟨"std::runtime_error", "Test exception"⟩ : Except Exn Unit) := by
  obtain ⟨deque, hq, -, he⟩ := enqueue_running
    (⟨1, [[]], false, fun _ => 0⟩ : ThreadPool (Work Unit)) []
    (pure_callable fun _ => Except.error ⟨"std::runtime_error", "Test exception"⟩)
    rfl rfl (by decide)
  obtain ⟨index, deque', work, hq', ht, -, hrun⟩ :=
    enqueue_failure_propagates _ _ _ _ _ ⟨"std::runtime_error", "Test exception"⟩ _ he
  have hi : index = 0 := by
    have := lt_length_of_getElem? hq'
    simpa using this
  subst hi
  simp only [List.getElem?_cons_zero, Option.some.injEq] at hq'
  subst hq'
  obtain ⟨hw1, hg1, -⟩ := hrun [none] [none] rfl rfl (by decide)
  exact ⟨work, _, he, by simpa using ht, hw1, hg1⟩

/-- The unit of work queued by `continue_with`, run with the two shared states
of the call not yet ready: with the antecedent ready it stores in the returned
future what the continuation made of the antecedent's value, or the
antecedent's exception, and returns normally. -/
theorem continuation_work_run [Inhabited V] (n future : Nat) (continuation : V → Except Exn V)
    (h : Heap V) (r : Except Exn V) (hr : future_get h future = some r)
    (h0 : h[n]? = some none) (h1 : h[n + 1]? = some none) :
    packaged_task.invoke
        { fn := void_callable (packaged_task.invoke
            { fn := task_wrapper future continuation, state := n }),
          state := n + 1 } h
      = some (Except.ok (),
          (h.set n (some (r.bind continuation))).set (n + 1) (some (Except.ok default))) := by
  cases r with
  | error e =>
    simp [packaged_task.invoke, void_callable, task_wrapper, hr, h0, h1, Except.map, Except.bind]
  | ok v =>
    simp [packaged_task.invoke, void_callable, task_wrapper, hr, h0, h1, Except.map, Except.bind]

/-- The unit of work queued by `continue_with` blocks while the antecedent is
not ready. -/
theorem continuation_work_blocks [Inhabited V] (n future : Nat)
    (continuation : V → Except Exn V) (h : Heap V) (hr : future_get h future = none)
    (h0 : h[n]? = some none) (h1 : h[n + 1]? = some none) :
    packaged_task.invoke
        { fn := void_callable (packaged_task.invoke
            { fn := task_wrapper future continuation, state := n }),
          state := n + 1 } h = none := by
  simp [packaged_task.invoke, void_callable, task_wrapper, hr, h0, h1]

/-- What a returning call of `continue_with` did. -/
theorem continue_with_ok_inv [Inhabited V] (pool pool' : ThreadPool (Work V))
    (heap heap' : Heap V) (future : Nat) (continuation : V → Except Exn V) (res : Nat)
    (h : continue_with pool heap future continuation = some (Except.ok res, pool', heap')) :
    ∃ deque : ThreadSafeDeque (Work V),
      pool.tasks_[(get_rng_index pool).1]? = some deque ∧
      res = heap.length ∧ heap' = (heap ++ [none]) ++ [none] ∧
      pool'.tasks_ = pool.tasks_.set (get_rng_index pool).1
        (deque ++ [packaged_task.invoke
          { fn := void_callable (packaged_task.invoke
              { fn := task_wrapper future continuation, state := heap.length }),
            state := heap.length + 1 }]) := by
  simp only [continue_with] at h
  cases he : enqueue pool (heap ++ [none]) (void_callable (packaged_task.invoke
      { fn := task_wrapper future continuation, state := heap.length })) with
  | none =>
    rw [he] at h
    simp at h
  | some r =>
    obtain ⟨res1, pool1, heap1⟩ := r
    rw [he] at h
    cases res1 with
    | error e => simp at h
    | ok fut1 =>
      simp only [Option.some.injEq, Prod.mk.injEq, Except.ok.injEq] at h
      obtain ⟨h1, h2, h3⟩ := h
      subst h1
      subst h2
      subst h3
      obtain ⟨deque, hq, -, hheap, ht, -, -, -⟩ := enqueue_ok_inv _ _ _ _ _ _ he
      refine ⟨deque, hq, rfl, hheap, ?_⟩
      rw [ht]
      simp

/-- A running pool with at least one worker lets `continue_with` return. -/
theorem continue_with_running [Inhabited V] (pool : ThreadPool (Work V)) (heap : Heap V)
    (future : Nat) (continuation : V → Except Exn V)
    (hwf : pool.tasks_.length = pool.workers_size_)
    (hstop : pool.stop_flag_ = false) (hw : 0 < pool.workers_size_) :
    ∃ pool' : ThreadPool (Work V),
      continue_with pool heap future continuation
        = some (Except.ok heap.length, pool', (heap ++ [none]) ++ [none]) ∧
      pool'.tasks_.length = pool'.workers_size_ ∧ pool'.stop_flag_ = false ∧
      0 < pool'.workers_size_ := by
  obtain ⟨deque, hq, -, he⟩ := enqueue_running pool (heap ++ [none])
    (void_callable (packaged_task.invoke
      { fn := task_wrapper future continuation, state := heap.length })) hwf hstop hw
  refine ⟨{ (get_rng_index pool).2 with
      tasks_ := pool.tasks_.set (get_rng_index pool).1
        (deque ++ [packaged_task.invoke
          { fn := void_callable (packaged_task.invoke
              { fn := task_wrapper future continuation, state := heap.length }),
            state := (heap ++ [none]).length }]) }, ?_, ?_, ?_, ?_⟩
  · simp only [continue_with]
    rw [he]
  · simpa [get_rng_index] using hwf
  · exact hstop
  · exact hw

/-- C5. `continue_with` chains compose.  When `continue_with(antecedent, f)`
returns a future, it has queued one unit of work; run by a worker once the
antecedent holds the value `v`, that unit returns normally and the returned
future then holds `f v`.  When a second `continue_with` on that future with `g`
returns the final future, it has queued a second unit, and after the two units
have run in turn the final future holds `g (f v)`. -/
theorem continue_with_composes [Inhabited V] (pool pool1 pool2 : ThreadPool (Work V))
    (heap heap1 heap2 : Heap V) (antecedent first final : Nat) (f g : V → V)
    (h1 : continue_with pool heap antecedent (fun x => Except.ok (f x))
      = some (Except.ok first, pool1, heap1))
    (h2 : continue_with pool1 heap1 first (fun x => Except.ok (g x))
      = some (Except.ok final, pool2, heap2)) :
    ∃ (index1 : Nat) (deque1 : ThreadSafeDeque (Work V)) (work1 : Work V)
      (index2 : Nat) (deque2 : ThreadSafeDeque (Work V)) (work2 : Work V),
      pool.tasks_[index1]? = some deque1 ∧
      pool1.tasks_ = pool.tasks_.set index1 (deque1 ++ [work1]) ∧
      pool1.tasks_[index2]? = some deque2 ∧
      pool2.tasks_ = pool1.tasks_.set index2 (deque2 ++ [work2]) ∧
      (∀ (h : Heap V) (v : V), future_get h antecedent = some (Except.ok v) →
        h[first]? = some none → h[first + 1]? = some none →
        ∃ h' : Heap V, work1 h = some (Except.ok (), h') ∧
          future_get h' first = some (Except.ok (f v))) ∧
      (∀ (h : Heap V) (v : V), future_get h antecedent = some (Except.ok v) →
        h[first]? = some none → h[first + 1]? = some none →
        h[final]? = some none → h[final + 1]? = some none →
        ∃ h' h'' : Heap V, work1 h = some (Except.ok (), h') ∧
          work2 h' = some (Except.ok (), h'') ∧
          future_get h'' final = some (Except.ok (g (f v)))) := by
  obtain ⟨deque1, hq1, hr1, hh1, ht1⟩ := continue_with_ok_inv _ _ _ _ _ _ _ h1
  obtain ⟨deque2, hq2, hr2, hh2, ht2⟩ := continue_with_ok_inv _ _ _ _ _ _ _ h2
  have hfinal : final = first + 2 := by
    rw [hr2, hh1, hr1]
    simp
  have run1 : ∀ (h : Heap V) (v : V), future_get h antecedent = some (Except.ok v) →
      h[first]? = some none → h[first + 1]? = some none →
      packaged_task.invoke
          { fn := void_callable (packaged_task.invoke
              { fn := task_wrapper antecedent (fun x => Except.ok (f x)), state := heap.length }),
            state := heap.length + 1 } h
        = some (Except.ok (),
            (h.set first (some (Except.ok (f v)))).set (first + 1) (some (Except.ok default))) ∧
      future_get ((h.set first (some (Except.ok (f v)))).set (first + 1)
          (some (Except.ok default))) first = some (Except.ok (f v)) := by
    intro h v hv h0 h1'
    rw [hr1] at h0 h1' ⊢
    refine ⟨continuation_work_run heap.length antecedent _ h (Except.ok v) hv h0 h1', ?_⟩
    rw [future_get_set_ne _ _ _ _ (by omega), future_get_set _ _ _ (lt_length_of_getElem? h0)]
  refine ⟨_, deque1, _, _, deque2, _, hq1, ht1, hq2, ht2, ?_, ?_⟩
  · intro h v hv h0 h1'
    exact ⟨_, run1 h v hv h0 h1'⟩
  · intro h v hv h0 h1' h2' h3'
    obtain ⟨hw1, hg1⟩ := run1 h v hv h0 h1'
    have hlen1 : heap1.length = final := hr2.symm
    have c2 : ((h.set first (some (Except.ok (f v)))).set (first + 1)
        (some (Except.ok default)))[heap1.length]? = some none := by
      rw [hlen1, List.getElem?_set_ne (by omega), List.getElem?_set_ne (by omega)]; exact h2'
    have c3 : ((h.set first (some (Except.ok (f v)))).set (first + 1)
        (some (Except.ok default)))[heap1.length + 1]? = some none := by
      rw [hlen1, List.getElem?_set_ne (by omega), List.getElem?_set_ne (by omega)]; exact h3'
    refine ⟨_, _, hw1,
      continuation_work_run heap1.length first _ _ (Except.ok (f v)) hg1 c2 c3, ?_⟩
    rw [future_get_set_ne _ _ _ _ (by omega), hlen1,
      future_get_set _ _ _ (by rw [← hlen1]; exact lt_length_of_getElem? c2)]
    rfl

/-- Witness of C5: the chain of the test `ChainMultipleContinuations`
(antecedent 1, then `+ 1`, then `* 2`, result 4) on a pool of one worker. -/
theorem continue_with_composes_witness :
    ∃ (work1 work2 : Work Nat) (pool1 pool2 : ThreadPool (Work Nat)) (h' h'' : Heap Nat),
      continue_with (⟨1, [[]], false, fun _ => 0⟩ : ThreadPool (Work Nat))
          [some (Except.ok 1)] 0 (fun x => Except.ok (x + 1))
        = some (Except.ok 1, pool1, [some (Except.ok 1), none, none]) ∧
      continue_with pool1 [some (Except.ok 1), none, none] 1 (fun x => Except.ok (x * 2))
        = some (Except.ok 3, pool2, [some (Except.ok 1), none, none, none, none]) ∧
      pool2.tasks_ = [[work1, work2]] ∧
      work1 [some (Except.ok 1), none, none, none, none] = some (Except.ok (), h') ∧
      work2 h' = some (Except.ok (), h'') ∧
      future_get h'' 3 = some (Except.ok 4) := by
  obtain ⟨pool1, hc1, hwf1, hstop1, hw1⟩ := continue_with_running
    (⟨1, [[]], false, fun _ => 0⟩ : ThreadPool (Work Nat)) [some (Except.ok 1)] 0
    (fun x => Except.ok (x + 1)) rfl rfl (by decide)
  obtain ⟨pool2, hc2, -, -, -⟩ := continue_with_running pool1
    ([some (Except.ok 1)] ++ [none] ++ [none]) 1 (fun x => Except.ok (x * 2)) hwf1 hstop1 hw1
  obtain ⟨i1, d1, work1, i2, d2, work2, hq1, ht1, hq2, ht2, -, hrun⟩ :=
    continue_with_composes _ pool1 pool2 _ _ _ 0 1 3 (fun x => x + 1) (fun x => x * 2) hc1 hc2
  obtain ⟨h', h'', hw1', hw2', hg⟩ := hrun [some (Except.ok 1), none, none, none, none] 1
    rfl rfl rfl rfl rfl
  refine ⟨work1, work2, pool1, pool2, h', h'', hc1, hc2, ?_, hw1', hw2', hg⟩
  have hi1 : i1 = 0 := by
    have := lt_length_of_getElem? hq1
    simp at this
    exact this
  subst hi1
  simp at hq1
  subst hq1
  simp at ht1
  rw [ht1] at hq2 ht2
  have hi2 : i2 = 0 := by
    have := lt_length_of_getElem? hq2
    simp at this
    exact this
  subst hi2
  simp at hq2
  subst hq2
  simpa using ht2

end ThreadPool

/-! ### Worker loop: conservation of queued work -/

namespace ThreadPool

variable {T : Type}

theorem flatten_set (ts : List (List T)) (i : Nat) (q q' : List T) (h : ts[i]? = some q) :
    (((ts.set i q').flatten : List T) : Multiset T) + (q : Multiset T)
      = ((ts.flatten : List T) : Multiset T) + (q' : Multiset T) := by
  induction ts generalizing i with
  | nil => simp at h
  | cons t rest ih =>
    cases i with
    | zero =>
      simp only [List.getElem?_cons_zero, Option.some.injEq] at h
      subst h
      simp only [List.set_cons_zero, List.flatten_cons, ← Multiset.coe_add]
      abel
    | succ i =>
      simp only [List.getElem?_cons_succ] at h
      have := ih i h
      simp only [List.set_cons_succ, List.flatten_cons, ← Multiset.coe_add] at this ⊢
      rw [add_assoc, this]
      abel

theorem length_le_card_flatten (ts : List (List T)) (i : Nat) (q : List T) (h : ts[i]? = some q) :
    q.length ≤ Multiset.card ((ts.flatten : List T) : Multiset T) := by
  have := flatten_set ts i q [] h
  have h2 := congrArg Multiset.card this
  simp only [Multiset.card_add, Multiset.coe_card, List.length_nil] at h2
  simp only [Multiset.coe_card]
  omega

/-- Removing the head of queue `i`: the queued multiset loses exactly that
unit. -/
theorem queued_pop (pool : ThreadPool T) (i : Nat) (task : T) (rest : List T)
    (h : pool.tasks_[i]? = some (task :: rest)) :
    queued pool = task ::ₘ queued { pool with tasks_ := pool.tasks_.set i rest } := by
  have := flatten_set pool.tasks_ i (task :: rest) rest h
  simp only [queued]
  rw [← Multiset.cons_coe, Multiset.add_cons] at this
  have h2 : (task ::ₘ ((((pool.tasks_.set i rest).flatten : List T) : Multiset T)
      + (rest : Multiset T))) = (task ::ₘ (((pool.tasks_.set i rest).flatten : List T) : Multiset T))
      + (rest : Multiset T) := by
    rw [Multiset.cons_add]
  rw [h2] at this
  exact (add_right_cancel this).symm

/-- `balance_queues` called by a worker whose own queue is empty: it returns,
no unit of work is lost or added, and every queue that held work still does. -/
theorem balance_queues_idle (pool : ThreadPool T) (index victim : Nat) (L : List T)
    (hown : pool.tasks_[index]? = some []) (hv : pool.tasks_[victim]? = some L)
    (hne : victim ≠ index) (hfit : L.length < SIZE_MOD) :
    ∃ pool' : ThreadPool T, balance_queues pool index victim = some pool' ∧
      pool'.tasks_.length = pool.tasks_.length ∧
      pool'.workers_size_ = pool.workers_size_ ∧ pool'.stop_flag_ = pool.stop_flag_ ∧
      queued pool' = queued pool ∧
      (∀ (j : Nat) (q : List T), pool.tasks_[j]? = some q → q ≠ [] →
        ∃ q' : List T, pool'.tasks_[j]? = some q' ∧ q' ≠ []) := by
  obtain ⟨-, hb⟩ := balance_queues_eq pool victim index L [] hv hown hne (by simp) hfit _ rfl
  obtain ⟨r1, r2, r3⟩ := balance_queues_read pool victim index L []
    (L.drop (if L.length - ([] : List T).length ≤ 2 then 0
      else (L.length - ([] : List T).length - 1) / 2))
    ([] ++ L.take (if L.length - ([] : List T).length ≤ 2 then 0
      else (L.length - ([] : List T).length - 1) / 2)) hv hown hne
  refine ⟨_, hb, by simp, rfl, rfl, ?_, ?_⟩
  · simp only [queued]
    generalize (if L.length - ([] : List T).length ≤ 2 then 0
      else (L.length - ([] : List T).length - 1) / 2) = k at r1 r2 r3 ⊢
    have e1 := flatten_set pool.tasks_ victim L (L.drop k) hv
    have hown1 : (pool.tasks_.set victim (List.drop k L))[index]? = some [] := by
      rw [List.getElem?_set_ne hne]; exact hown
    have e2 := flatten_set (pool.tasks_.set victim (List.drop k L)) index [] ([] ++ L.take k) hown1
    have e3 : ((L.take k : List T) : Multiset T) + ((L.drop k : List T) : Multiset T)
        = (L : Multiset T) := by
      rw [Multiset.coe_add, List.take_append_drop]
    simp only [List.nil_append, Multiset.coe_nil, add_zero] at e2
    have e4 : ((((pool.tasks_.set victim (List.drop k L)).set index ([] ++ List.take k L)).flatten
        : List T) : Multiset T) + (L : Multiset T)
        = ((pool.tasks_.flatten : List T) : Multiset T) + (L : Multiset T) := by
      simp only [List.nil_append]
      rw [e2, add_assoc, add_comm ((List.take k L : List T) : Multiset T), ← add_assoc, e1,
        add_assoc, add_comm ((List.drop k L : List T) : Multiset T), e3]
    exact add_right_cancel e4
  · intro j q hj hq
    by_cases hjv : j = victim
    · subst hjv
      rw [hv] at hj
      simp only [Option.some.injEq] at hj
      subst hj
      refine ⟨_, r1, ?_⟩
      have hpos : 0 < L.length := List.length_pos.mpr hq
      intro hnil
      have hlen := congrArg List.length hnil
      simp only [List.length_drop, List.length_nil] at hlen
      split_ifs at hlen <;> omega
    · by_cases hji : j = index
      · subst hji
        rw [hown] at hj
        simp only [Option.some.injEq] at hj
        exact absurd hj.symm hq
      · exact ⟨q, by rw [r3 j hjv hji]; exact hj, hq⟩

/-- The steal loop on a pool with at least one worker: it ends, finding either
the head of one queue, which is then the only unit removed, or nothing, the
queues being then as before. -/
theorem steal_loop_spec (n : Nat) (pool : ThreadPool T)
    (hwf : pool.tasks_.length = pool.workers_size_) (hw : 0 < pool.workers_size_) :
    ∃ (found : Option T) (pool' : ThreadPool T), steal_loop n pool = some (found, pool') ∧
      pool'.tasks_.length = pool.tasks_.length ∧
      pool'.workers_size_ = pool.workers_size_ ∧ pool'.stop_flag_ = pool.stop_flag_ ∧
      (∀ task, found = some task → queued pool = task ::ₘ queued pool') ∧
      (found = none → pool'.tasks_ = pool.tasks_) := by
  induction n generalizing pool with
  | zero => exact ⟨none, pool, rfl, rfl, rfl, rfl, fun _ h => (by cases h), fun _ => rfl⟩
  | succ n ih =>
    have hlt : (get_rng_index pool).1 < pool.tasks_.length := by
      have := get_rng_index_lt pool hw
      omega
    have hq : (get_rng_index pool).2.tasks_[(get_rng_index pool).1]?
        = some pool.tasks_[(get_rng_index pool).1] := List.getElem?_eq_getElem hlt
    cases hd : pool.tasks_[(get_rng_index pool).1] with
    | nil =>
      rw [hd] at hq
      have hset : (get_rng_index pool).2.tasks_.set (get_rng_index pool).1
          (dequeue_top ([] : ThreadSafeDeque T)).2 = pool.tasks_ :=
        set_of_getElem? _ _ _ hq
      obtain ⟨found, pool', hs, h1, h2, h3, h4, h5⟩ := ih
        { (get_rng_index pool).2 with tasks_ := pool.tasks_ } hwf hw
      refine ⟨found, pool', ?_, h1, h2, h3, h4, h5⟩
      rw [steal_loop, hq]
      simp only [hset]
      exact hs
    | cons task rest =>
      rw [hd] at hq
      refine ⟨some task, { (get_rng_index pool).2 with
          tasks_ := (get_rng_index pool).2.tasks_.set (get_rng_index pool).1 rest },
        ?_, ?_, rfl, rfl, ?_, fun h => (by cases h)⟩
      · rw [steal_loop, hq]
        rfl
      · simp [get_rng_index]
      · intro t ht
        simp only [Option.some.injEq] at ht
        subst ht
        exact queued_pop pool _ _ _ hq

/-- One pass of a worker through the search for a task, on a pool whose queue
vector has `workers_size_` entries: the pass gets to its end; a task found is
the only unit of work that left the queues; when none is found the queued
units are the same, every queue that held work still does, and the worker's
own queue was empty. -/
theorem worker_iteration_spec (strategy : Strategy) (pool : ThreadPool T) (index : Nat)
    (tl : ThreadLocal) (hwf : pool.tasks_.length = pool.workers_size_)
    (hidx : index < pool.workers_size_) (hfit : Multiset.card (queued pool) < SIZE_MOD) :
    ∃ (found : Option T) (pool' : ThreadPool T) (tl' : ThreadLocal),
      worker_iteration strategy pool index tl = some (found, pool', tl') ∧
      pool'.tasks_.length = pool.tasks_.length ∧
      pool'.workers_size_ = pool.workers_size_ ∧ pool'.stop_flag_ = pool.stop_flag_ ∧
      (∀ task, found = some task → queued pool = task ::ₘ queued pool') ∧
      (found = none → queued pool' = queued pool ∧
        ∀ (j : Nat) (q : List T), pool.tasks_[j]? = some q → q ≠ [] →
          ∃ q' : List T, pool'.tasks_[j]? = some q' ∧ q' ≠ []) ∧
      (found = none → pool.tasks_[index]? = some []) := by
  have hlt : index < pool.tasks_.length := by omega
  have hown : pool.tasks_[index]? = some pool.tasks_[index] := List.getElem?_eq_getElem hlt
  cases hd : pool.tasks_[index] with
  | cons task rest =>
    rw [hd] at hown
    refine ⟨some task, { pool with tasks_ := pool.tasks_.set index rest }, tl, ?_, by simp,
      rfl, rfl, ?_, fun h => (by cases h), fun h => (by cases h)⟩
    · rw [worker_iteration, hown]
      rfl
    · intro t ht
      simp only [Option.some.injEq] at ht
      subst ht
      exact queued_pop pool _ _ _ hown
  | nil =>
    rw [hd] at hown
    have hset : pool.tasks_.set index (dequeue ([] : ThreadSafeDeque T)).2 = pool.tasks_ :=
      set_of_getElem? _ _ _ hown
    have hw : 0 < pool.workers_size_ := by omega
    cases strategy with
    | WorkSharing =>
      have hvlt : (get_rng_index pool).1 < pool.tasks_.length := by
        have := get_rng_index_lt pool hw
        omega
      have hunf : worker_iteration Strategy.WorkSharing pool index tl =
          if (get_rng_index pool).1 ≠ index then
            match balance_queues (get_rng_index pool).2 index (get_rng_index pool).1 with
            | none => none
            | some pool2 => some (none, pool2, tl)
          else some (none, (get_rng_index pool).2, tl) := by
        rw [worker_iteration, hown]
        simp only [hset]
        rfl
      rw [hunf]
      by_cases hvi : (get_rng_index pool).1 = index
      · refine ⟨none, (get_rng_index pool).2, tl, by simp [hvi], rfl, rfl, rfl,
          fun _ h => (by cases h), fun _ => ⟨rfl, fun j q hj hq => ⟨q, hj, hq⟩⟩, fun _ => hown⟩
      · have hv : (get_rng_index pool).2.tasks_[(get_rng_index pool).1]?
            = some pool.tasks_[(get_rng_index pool).1] := List.getElem?_eq_getElem hvlt
        have hfitL : (pool.tasks_[(get_rng_index pool).1]).length < SIZE_MOD :=
          lt_of_le_of_lt (length_le_card_flatten pool.tasks_ _ _ hv) hfit
        obtain ⟨pool', hb, h1, h2, h3, h4, h5⟩ := balance_queues_idle (get_rng_index pool).2
          index (get_rng_index pool).1 _ hown hv hvi hfitL
        refine ⟨none, pool', tl, by simp [hvi, hb], h1, h2, h3,
          fun _ h => (by cases h), fun _ => ⟨h4, h5⟩, fun _ => hown⟩
    | WorkStealing =>
      obtain ⟨found, pool', hs, h1, h2, h3, h4, h5⟩ := steal_loop_spec pool.workers_size_ pool hwf hw
      have hunf : worker_iteration Strategy.WorkStealing pool index tl =
          match steal_loop pool.workers_size_ pool with
          | none => none
          | some (found, pool2) => some (found, pool2, tl) := by
        rw [worker_iteration, hown]
        simp only [hset]
        rfl
      refine ⟨found, pool', tl, by rw [hunf, hs], h1, h2, h3, h4, ?_, fun _ => hown⟩
      intro hf
      have ht := h5 hf
      refine ⟨by simp only [queued, ht], ?_⟩
      intro j q hj hq
      exact ⟨q, by rw [ht]; exact hj, hq⟩

theorem random_picks_succ (pool : ThreadPool T) (n : Nat) :
    random_picks pool (n + 1)
      = (get_rng_index pool).1 :: random_picks (get_rng_index pool).2 n := by
  simp only [random_picks, List.range_succ_eq_map, List.map_cons, List.map_map]
  rfl

/-- The steal loop finds exactly the head of the first queue holding work
among its random picks, and removes nothing else. -/
theorem steal_loop_exact (n : Nat) (pool : ThreadPool T)
    (hwf : pool.tasks_.length = pool.workers_size_) (hw : 0 < pool.workers_size_) :
    ∃ (found : Option T) (pool' : ThreadPool T), steal_loop n pool = some (found, pool') ∧
      (first_nonempty_pick pool n = none → found = none ∧ pool'.tasks_ = pool.tasks_) ∧
      (∀ v, first_nonempty_pick pool n = some v →
        ∃ (task : T) (rest : List T), pool.tasks_[v]? = some (task :: rest) ∧
          found = some task ∧ pool'.tasks_ = pool.tasks_.set v rest) := by
  induction n generalizing pool with
  | zero =>
    refine ⟨none, pool, rfl, fun _ => ⟨rfl, rfl⟩, ?_⟩
    intro v hv
    simp [first_nonempty_pick, random_picks] at hv
  | succ n ih =>
    have hlt : (get_rng_index pool).1 < pool.tasks_.length := by
      have := get_rng_index_lt pool hw
      omega
    have hq : (get_rng_index pool).2.tasks_[(get_rng_index pool).1]?
        = some pool.tasks_[(get_rng_index pool).1] := List.getElem?_eq_getElem hlt
    have hq' : pool.tasks_[(get_rng_index pool).1]?
        = some pool.tasks_[(get_rng_index pool).1] := List.getElem?_eq_getElem hlt
    cases hd : pool.tasks_[(get_rng_index pool).1] with
    | nil =>
      rw [hd] at hq hq'
      have hset : (get_rng_index pool).2.tasks_.set (get_rng_index pool).1
          (dequeue_top ([] : ThreadSafeDeque T)).2 = pool.tasks_ :=
        set_of_getElem? _ _ _ hq
      obtain ⟨found, pool', hs, h1, h2⟩ := ih
        { (get_rng_index pool).2 with tasks_ := pool.tasks_ } hwf hw
      have hfirst : first_nonempty_pick pool (n + 1)
          = first_nonempty_pick { (get_rng_index pool).2 with tasks_ := pool.tasks_ } n := by
        simp only [first_nonempty_pick, random_picks_succ, List.find?_cons, hq', Option.getD_some,
          List.isEmpty_nil, Bool.not_true]
        rfl
      refine ⟨found, pool', ?_, ?_, ?_⟩
      · rw [steal_loop, hq]
        simp only [hset]
        exact hs
      · intro h
        rw [hfirst] at h
        exact h1 h
      · intro v h
        rw [hfirst] at h
        exact h2 v h
    | cons task rest =>
      rw [hd] at hq hq'
      have hfirst : first_nonempty_pick pool (n + 1) = some (get_rng_index pool).1 := by
        simp [first_nonempty_pick, random_picks_succ, List.find?_cons, hq']
      refine ⟨some task, { (get_rng_index pool).2 with
          tasks_ := (get_rng_index pool).2.tasks_.set (get_rng_index pool).1 rest },
        ?_, ?_, ?_⟩
      · rw [steal_loop, hq]
        rfl
      · intro h
        rw [hfirst] at h
        cases h
      · intro v h
        rw [hfirst] at h
        simp only [Option.some.injEq] at h
        subst h
        exact ⟨task, rest, hq', rfl, rfl⟩

theorem balance_queues_same (pool : ThreadPool T) (index : Nat) :
    balance_queues pool index index = none := by
  simp [balance_queues]

/-- One pass of a worker through the search for a task, unit by unit: what is
found, and which queue it left, for a worker with work of its own and for an
idle worker under each strategy. -/
theorem worker_iteration_exact (strategy : Strategy) (pool : ThreadPool T) (index : Nat)
    (tl : ThreadLocal) (hwf : pool.tasks_.length = pool.workers_size_)
    (hidx : index < pool.workers_size_)
    (hfit : ∀ q ∈ pool.tasks_, unsafe_size q < SIZE_MOD) :
    ∃ (found : Option T) (pool' : ThreadPool T) (tl' : ThreadLocal),
      worker_iteration strategy pool index tl = some (found, pool', tl') ∧
      ((found.toList : List T) : Multiset T) + queued pool' = queued pool ∧
      (∀ (task : T) (rest : List T), pool.tasks_[index]? = some (task :: rest) →
        found = some task ∧ pool'.tasks_ = pool.tasks_.set index rest) ∧
      (pool.tasks_[index]? = some [] → strategy = Strategy.WorkSharing →
        found = none ∧
        ((get_rng_index pool).1 = index → pool'.tasks_ = pool.tasks_) ∧
        ((get_rng_index pool).1 ≠ index →
          balance_queues (get_rng_index pool).2 index (get_rng_index pool).1 = some pool')) ∧
      (pool.tasks_[index]? = some [] → strategy = Strategy.WorkStealing →
        (first_nonempty_pick pool pool.workers_size_ = none →
          found = none ∧ pool'.tasks_ = pool.tasks_) ∧
        (∀ v, first_nonempty_pick pool pool.workers_size_ = some v →
          ∃ (task : T) (rest : List T), pool.tasks_[v]? = some (task :: rest) ∧
            found = some task ∧ pool'.tasks_ = pool.tasks_.set v rest)) := by
  have hlt : index < pool.tasks_.length := by omega
  have hown : pool.tasks_[index]? = some pool.tasks_[index] := List.getElem?_eq_getElem hlt
  cases hd : pool.tasks_[index] with
  | cons task rest =>
    rw [hd] at hown
    refine ⟨some task, { pool with tasks_ := pool.tasks_.set index rest }, tl, ?_, ?_, ?_, ?_, ?_⟩
    · rw [worker_iteration, hown]
      rfl
    · rw [queued_pop pool _ _ _ hown]
      rfl
    · intro t r h
      rw [hown] at h
      simp only [Option.some.injEq, List.cons.injEq] at h
      obtain ⟨h1, h2⟩ := h
      subst h1
      subst h2
      exact ⟨rfl, rfl⟩
    · intro h
      rw [hown] at h
      simp at h
    · intro h
      rw [hown] at h
      simp at h
  | nil =>
    rw [hd] at hown
    have hset : pool.tasks_.set index (dequeue ([] : ThreadSafeDeque T)).2 = pool.tasks_ :=
      set_of_getElem? _ _ _ hown
    have hw : 0 < pool.workers_size_ := by omega
    have hnocons : ∀ (task : T) (rest : List T), pool.tasks_[index]? = some (task :: rest) →
        False := by
      intro t r h
      rw [hown] at h
      simp at h
    cases strategy with
    | WorkSharing =>
      have hvlt : (get_rng_index pool).1 < pool.tasks_.length := by
        have := get_rng_index_lt pool hw
        omega
      have hunf : worker_iteration Strategy.WorkSharing pool index tl =
          if (get_rng_index pool).1 ≠ index then
            match balance_queues (get_rng_index pool).2 index (get_rng_index pool).1 with
            | none => none
            | some pool2 => some (none, pool2, tl)
          else some (none, (get_rng_index pool).2, tl) := by
        rw [worker_iteration, hown]
        simp only [hset]
        rfl
      rw [hunf]
      by_cases hvi : (get_rng_index pool).1 = index
      · refine ⟨none, (get_rng_index pool).2, tl, by simp [hvi], ?_,
          fun t r h => (hnocons t r h).elim,
          fun _ _ => ⟨rfl, fun _ => rfl, fun h => absurd hvi h⟩,
          fun _ h => (by cases h)⟩
        simp [queued, get_rng_index]
      · have hv : (get_rng_index pool).2.tasks_[(get_rng_index pool).1]?
            = some pool.tasks_[(get_rng_index pool).1] := List.getElem?_eq_getElem hvlt
        have hfitL : (pool.tasks_[(get_rng_index pool).1]).length < SIZE_MOD :=
          hfit _ (List.getElem_mem hvlt)
        obtain ⟨pool', hb, -, -, -, h4, -⟩ := balance_queues_idle (get_rng_index pool).2
          index (get_rng_index pool).1 _ hown hv hvi hfitL
        refine ⟨none, pool', tl, by simp [hvi, hb], ?_,
          fun t r h => (hnocons t r h).elim,
          fun _ _ => ⟨rfl, fun h => absurd h hvi, fun _ => hb⟩,
          fun _ h => (by cases h)⟩
        rw [h4]
        simp [queued, get_rng_index]
    | WorkStealing =>
      obtain ⟨found, pool', hs, h1, h2⟩ := steal_loop_exact pool.workers_size_ pool hwf hw
      have hunf : worker_iteration Strategy.WorkStealing pool index tl =
          match steal_loop pool.workers_size_ pool with
          | none => none
          | some (found, pool2) => some (found, pool2, tl) := by
        rw [worker_iteration, hown]
        simp only [hset]
        rfl
      refine ⟨found, pool', tl, by rw [hunf, hs], ?_,
        fun t r h => (hnocons t r h).elim, fun _ h => (by cases h), fun _ _ => ⟨h1, h2⟩⟩
      cases hf : first_nonempty_pick pool pool.workers_size_ with
      | none =>
        obtain ⟨hfound, ht⟩ := h1 hf
        subst hfound
        simp [queued, ht]
      | some v =>
        obtain ⟨task, rest, hq, hfound, ht⟩ := h2 v hf
        subst hfound
        rw [queued_pop pool _ _ _ hq]
        simp [queued, ht]

end ThreadPool

/-! ### High-volume run -/

section HighVolume

theorem mem_pending {V : Type} (heap : Heap V) (i : Nat) :
    i ∈ pending heap ↔ heap[i]? = some none := by
  simp only [pending, List.mem_filter, List.mem_range, future_get]
  constructor
  · rintro ⟨hlt, h⟩
    rw [List.getElem?_eq_getElem hlt] at h ⊢
    cases hc : heap[i] with
    | none => rfl
    | some r => rw [hc] at h; simp at h
  · intro h
    exact ⟨lt_length_of_getElem? h, by rw [h]; rfl⟩

theorem pending_nodup {V : Type} (heap : Heap V) : (pending heap).Nodup :=
  (List.nodup_range _).filter _

theorem pending_append_none {V : Type} (heap : Heap V) :
    pending (heap ++ [none]) = pending heap ++ [heap.length] := by
  simp only [pending, List.length_append, List.length_singleton, List.range_succ,
    List.filter_append]
  congr 1
  · apply List.filter_congr
    intro i hi
    rw [List.mem_range] at hi
    simp only [future_get, List.getElem?_append_left hi]
  · simp [future_get]

theorem pending_set {V : Type} (heap : Heap V) (a : Nat) (r : Except Exn V)
    (ha : heap[a]? = some none) :
    ((pending (heap.set a (some r)) : List Nat) : Multiset Nat)
      = ((pending heap : List Nat) : Multiset Nat).erase a := by
  rw [Multiset.coe_erase, (pending_nodup heap).erase_eq_filter]
  congr 1
  simp only [pending, List.length_set, List.filter_filter]
  apply List.filter_congr
  intro i hi
  by_cases hia : i = a
  · subst hia
    simp [future_get, List.getElem?_set_self (lt_length_of_getElem? ha)]
  · simp [future_get_set_ne _ _ _ _ (Ne.symm hia), hia]

theorem pending_length_le {V : Type} (heap : Heap V) : (pending heap).length ≤ heap.length := by
  have := List.length_filter_le (fun i => (future_get heap i).isNone) (List.range heap.length)
  simpa [pending] using this

theorem card_queued_eq (threads : Nat) (sys : System Nat)
    (hinv : HighVolumeInvariant threads sys) :
    Multiset.card (ThreadPool.queued sys.pool) = (pending sys.heap).length := by
  rw [hinv.queued_eq, Multiset.card_map, Multiset.coe_card]

/-- One pass of a worker thread during the high-volume run: the pass ends, the
invariant is kept, and either one more future became ready, or nothing was
executed, in which case the worker's own queue was empty and every queue that
held work still does. -/
theorem worker_thread_pass_spec (strategy : Strategy) (threads : Nat) (sys : System Nat)
    (index : Nat) (hinv : HighVolumeInvariant threads sys) (hidx : index < threads)
    (hfit : sys.heap.length < SIZE_MOD) :
    ∃ sys' : System Nat, worker_thread_pass strategy sys index = some sys' ∧
      HighVolumeInvariant threads sys' ∧ sys'.heap.length = sys.heap.length ∧
      ((pending sys'.heap).length + 1 = (pending sys.heap).length ∨
        ((pending sys'.heap).length = (pending sys.heap).length ∧
          (∀ (j : Nat) (q : List (Work Nat)), sys.pool.tasks_[j]? = some q → q ≠ [] →
            ∃ q' : List (Work Nat), sys'.pool.tasks_[j]? = some q' ∧ q' ≠ []) ∧
          sys.pool.tasks_[index]? = some [])) := by
  have hcard := card_queued_eq threads sys hinv
  have hfit2 : Multiset.card (ThreadPool.queued sys.pool) < SIZE_MOD := by
    have := pending_length_le sys.heap
    omega
  obtain ⟨found, pool', tl', hwi, h1, h2, h3, h4, h5, h6⟩ :=
    ThreadPool.worker_iteration_spec strategy sys.pool index (sys.locals index) hinv.wf
      (by rw [hinv.workers]; exact hidx) hfit2
  cases found with
  | none =>
    obtain ⟨hq, hne⟩ := h5 rfl
    refine ⟨{ pool := pool', heap := sys.heap,
              locals := Function.update sys.locals index tl' }, ?_, ?_, rfl, Or.inr ⟨rfl, hne, h6 rfl⟩⟩
    · simp only [worker_thread_pass, hinv.running, hwi]
      rfl
    · exact { wf := by rw [h1, h2]; exact hinv.wf
              workers := by rw [h2]; exact hinv.workers
              running := by rw [h3]; exact hinv.running
              results := hinv.results
              queued_eq := by rw [hq]; exact hinv.queued_eq }
  | some task =>
    have hq := h4 task rfl
    rw [hinv.queued_eq] at hq
    obtain ⟨a, ha, hta, hrest⟩ := (Multiset.map_eq_cons high_volume_work _ _ _).mpr hq
    rw [Multiset.mem_coe, mem_pending] at ha
    have halt : a < sys.heap.length := lt_length_of_getElem? ha
    have hrun : task sys.heap = some (Except.ok (), sys.heap.set a (some (Except.ok a))) := by
      rw [← hta]
      exact invoke_pure (fun _ => Except.ok a) a sys.heap ha
    refine ⟨{ pool := pool', heap := sys.heap.set a (some (Except.ok a)),
              locals := Function.update sys.locals index tl' }, ?_, ?_, by simp, Or.inl ?_⟩
    · simp only [worker_thread_pass, hinv.running, hwi, hrun]
      rfl
    · refine { wf := by rw [h1, h2]; exact hinv.wf
               workers := by rw [h2]; exact hinv.workers
               running := by rw [h3]; exact hinv.running
               results := ?_
               queued_eq := ?_ }
      · intro i hi
        simp only [List.length_set] at hi
        by_cases hia : a = i
        · subst hia
          right
          simp only [List.getElem?_set_self halt]
        · simp only [List.getElem?_set_ne hia]
          exact hinv.results i hi
      · simp only
        rw [pending_set sys.heap a (Except.ok a) ha]
        exact hrest.symm
    · have hp := congrArg Multiset.card (pending_set sys.heap a (Except.ok a) ha)
      have hmem : a ∈ ((pending sys.heap : List Nat) : Multiset Nat) := by
        rw [Multiset.mem_coe, mem_pending]; exact ha
      rw [Multiset.card_erase_of_mem hmem, Multiset.coe_card, Multiset.coe_card] at hp
      have hpos : 0 < (pending sys.heap).length :=
        List.length_pos_of_mem ((mem_pending sys.heap a).mpr ha)
      simp only [Nat.pred_eq_sub_one] at hp ⊢
      omega

/-- Any sequence of passes of valid worker threads during the high-volume run
ends and keeps the invariant; no future goes back to not ready, and if a
thread of the sequence has work in its own queue at the start, at least one
more future is ready at the end. -/
theorem run_schedule_spec (strategy : Strategy) (threads : Nat) (schedule : List Nat)
    (sys : System Nat) (hinv : HighVolumeInvariant threads sys)
    (hvalid : ∀ w ∈ schedule, w < threads) (hfit : sys.heap.length < SIZE_MOD) :
    ∃ sys' : System Nat, run_schedule strategy schedule sys = some sys' ∧
      HighVolumeInvariant threads sys' ∧ sys'.heap.length = sys.heap.length ∧
      (pending sys'.heap).length ≤ (pending sys.heap).length ∧
      (∀ (k : Nat) (q : List (Work Nat)), k ∈ schedule → sys.pool.tasks_[k]? = some q → q ≠ [] →
        (pending sys'.heap).length < (pending sys.heap).length) := by
  induction schedule generalizing sys with
  | nil =>
    exact ⟨sys, rfl, hinv, rfl, le_refl _, fun k q hk => by simp at hk⟩
  | cons w rest ih =>
    obtain ⟨sys1, hp, hinv1, hlen1, hcase⟩ :=
      worker_thread_pass_spec strategy threads sys w hinv (hvalid w (by simp)) hfit
    obtain ⟨sys2, hr, hinv2, hlen2, hle2, hprog2⟩ :=
      ih sys1 hinv1 (fun v hv => hvalid v (by simp [hv])) (by rw [hlen1]; exact hfit)
    refine ⟨sys2, ?_, hinv2, by rw [hlen2, hlen1], ?_, ?_⟩
    · simp only [run_schedule, hp]
      exact hr
    · rcases hcase with h | ⟨h, -, -⟩ <;> omega
    · intro k q hk hq hne
      rcases hcase with h | ⟨h, hkeep, hown⟩
      · omega
      · rw [List.mem_cons] at hk
        rcases hk with rfl | hk
        · rw [hown] at hq
          simp only [Option.some.injEq] at hq
          exact absurd hq.symm hne
        · obtain ⟨q', hq', hne'⟩ := hkeep k q hq hne
          have := hprog2 k q' hk hq' hne'
          omega

/-- One round during the high-volume run ends and keeps the invariant, and
while some future is not ready it makes at least one more ready. -/
theorem round_spec (strategy : Strategy) (threads : Nat) (sys : System Nat)
    (hinv : HighVolumeInvariant threads sys) (hfit : sys.heap.length < SIZE_MOD) :
    ∃ sys' : System Nat, round strategy sys = some sys' ∧
      HighVolumeInvariant threads sys' ∧ sys'.heap.length = sys.heap.length ∧
      (pending sys'.heap).length ≤ (pending sys.heap).length ∧
      (0 < (pending sys.heap).length →
        (pending sys'.heap).length < (pending sys.heap).length) := by
  obtain ⟨sys', hr, hinv', hlen, hle, hprog⟩ :=
    run_schedule_spec strategy threads (List.range sys.pool.workers_size_) sys hinv
      (fun w hw => by rw [List.mem_range, hinv.workers] at hw; exact hw) hfit
  refine ⟨sys', hr, hinv', hlen, hle, ?_⟩
  intro hpos
  have hcard := card_queued_eq threads sys hinv
  have hne : sys.pool.tasks_.flatten ≠ [] := by
    intro h
    simp only [ThreadPool.queued, h, Multiset.coe_nil, Multiset.card_zero] at hcard
    omega
  obtain ⟨x, hx⟩ := List.exists_mem_of_ne_nil _ hne
  obtain ⟨q, hq, hxq⟩ := List.mem_flatten.mp hx
  obtain ⟨k, hk⟩ := List.getElem?_of_mem hq
  have hklt : k < sys.pool.workers_size_ := by
    have := lt_length_of_getElem? hk
    rw [hinv.wf] at this
    exact this
  exact hprog k q (List.mem_range.mpr hklt) hk (List.ne_nil_of_mem hxq)

/-- `get()` on the future of submission `i` during the high-volume run, given
as many rounds of patience as there are futures not ready: it returns `i`. -/
theorem future_wait_spec (strategy : Strategy) (threads : Nat) (patience : Nat)
    (sys : System Nat) (i : Nat) (hinv : HighVolumeInvariant threads sys)
    (hi : i < sys.heap.length) (hfit : sys.heap.length < SIZE_MOD)
    (hp : (pending sys.heap).length ≤ patience) :
    ∃ sys' : System Nat, future_wait strategy patience sys i = some (Except.ok i, sys') ∧
      HighVolumeInvariant threads sys' ∧ sys'.heap.length = sys.heap.length ∧
      (pending sys'.heap).length ≤ (pending sys.heap).length := by
  induction patience generalizing sys with
  | zero =>
    rcases hinv.results i hi with h | h
    · have := List.length_pos_of_mem ((mem_pending sys.heap i).mpr h)
      omega
    · exact ⟨sys, by simp [future_wait, future_get, h], hinv, rfl, le_refl _⟩
  | succ patience ih =>
    rcases hinv.results i hi with h | h
    · have hpos := List.length_pos_of_mem ((mem_pending sys.heap i).mpr h)
      obtain ⟨sys1, hr, hinv1, hlen1, hle1, hlt1⟩ := round_spec strategy threads sys hinv hfit
      have hlt := hlt1 hpos
      obtain ⟨sys2, hw, hinv2, hlen2, hle2⟩ := ih sys1 hinv1 (by rw [hlen1]; exact hi)
        (by rw [hlen1]; exact hfit) (by omega)
      refine ⟨sys2, ?_, hinv2, by rw [hlen2, hlen1], by omega⟩
      simp only [future_wait, future_get, h, hr]
      exact hw
    · exact ⟨sys, by simp [future_wait, future_get, h], hinv, rfl, le_refl _⟩

/-- After a successful `enqueue` of submission `n` on a heap of `n` shared
states the invariant holds again. -/
theorem enqueue_keeps_invariant (threads : Nat) (sys : System Nat)
    (hinv : HighVolumeInvariant threads sys) (hthreads : 0 < threads) :
    ∃ pool' : ThreadPool (Work Nat),
      ThreadPool.enqueue sys.pool sys.heap (pure_callable fun _ => Except.ok sys.heap.length)
        = some (Except.ok sys.heap.length, pool', sys.heap ++ [none]) ∧
      HighVolumeInvariant threads
        { pool := pool', heap := sys.heap ++ [none], locals := sys.locals } := by
  obtain ⟨deque, hq, -, he⟩ := ThreadPool.enqueue_running sys.pool sys.heap
    (pure_callable fun _ => Except.ok sys.heap.length) hinv.wf hinv.running
    (by rw [hinv.workers]; exact hthreads)
  refine ⟨_, he, ?_⟩
  refine { wf := by simpa [ThreadPool.get_rng_index] using hinv.wf
           workers := hinv.workers
           running := hinv.running
           results := ?_
           queued_eq := ?_ }
  · intro i hi
    simp only [List.length_append, List.length_singleton] at hi
    by_cases hlt : i < sys.heap.length
    · simp only [List.getElem?_append_left hlt]
      exact hinv.results i hlt
    · have : i = sys.heap.length := by omega
      subst this
      left
      simp
  · have hf := ThreadPool.flatten_set sys.pool.tasks_ _ deque
      (deque ++ [packaged_task.invoke
        { fn := pure_callable fun _ => Except.ok sys.heap.length, state := sys.heap.length }]) hq
    rw [← Multiset.coe_add, ← add_assoc, add_comm _ (deque : Multiset (Work Nat)),
      add_comm _ (deque : Multiset (Work Nat)), add_assoc] at hf
    have hf2 := add_left_cancel hf
    simp only [ThreadPool.queued]
    rw [hf2, pending_append_none, ← Multiset.coe_add, Multiset.map_add]
    have hq0 := hinv.queued_eq
    simp only [ThreadPool.queued] at hq0
    rw [hq0]
    rfl

/-- The submission loop of the high-volume run from an empty heap: it returns
the futures `0 .. n - 1` and keeps the invariant. -/
theorem submit_loop_spec (strategy : Strategy) (threads : Nat) (schedule : Nat → List Nat)
    (n : Nat) (sys0 : System Nat) (hinv0 : HighVolumeInvariant threads sys0)
    (hempty : sys0.heap = []) (hthreads : 0 < threads)
    (hvalid : ∀ i, ∀ w ∈ schedule i, w < threads) (hn : n < SIZE_MOD) :
    ∃ sys : System Nat, submit_loop strategy schedule n sys0 = some (List.range n, sys) ∧
      HighVolumeInvariant threads sys ∧ sys.heap.length = n := by
  induction n with
  | zero => exact ⟨sys0, rfl, hinv0, by rw [hempty]; rfl⟩
  | succ n ih =>
    obtain ⟨sys1, hs1, hinv1, hlen1⟩ := ih (by omega)
    obtain ⟨pool', he, hinv2⟩ := enqueue_keeps_invariant threads sys1 hinv1 hthreads
    rw [hlen1] at he
    obtain ⟨sys3, hr, hinv3, hlen3, -, -⟩ := run_schedule_spec strategy threads (schedule n)
      { pool := pool', heap := sys1.heap ++ [none], locals := sys1.locals } hinv2 (hvalid n)
      (by simp only [List.length_append, List.length_singleton, hlen1]; exact hn)
    refine ⟨sys3, ?_, hinv3, by simp [hlen3, hlen1]⟩
    simp only [submit_loop, hs1, he, hr, List.range_succ]

/-- The retrieval loop of the high-volume run: every `get()` returns the index
of its submission. -/
theorem collect_loop_spec (strategy : Strategy) (threads : Nat) (patience : Nat)
    (futures : List Nat) (sys : System Nat) (acc : List Nat × Nat)
    (hinv : HighVolumeInvariant threads sys)
    (hfut : ∀ i ∈ futures, i < sys.heap.length) (hfit : sys.heap.length < SIZE_MOD)
    (hp : sys.heap.length ≤ patience) :
    collect_loop strategy patience futures sys acc
      = some (acc.1 ++ futures, acc.2 + futures.sum) := by
  induction futures generalizing sys acc with
  | nil => simp [collect_loop]
  | cons i rest ih =>
    have hpl := pending_length_le sys.heap
    obtain ⟨sys1, hw, hinv1, hlen1, -⟩ := future_wait_spec strategy threads patience sys i hinv
      (hfut i (by simp)) hfit (by omega)
    have := ih sys1 (acc.1 ++ [i], acc.2 + i) hinv1
      (fun j hj => by rw [hlen1]; exact hfut j (by simp [hj])) (by rw [hlen1]; exact hfit)
      (by rw [hlen1]; exact hp)
    simp only [collect_loop, hw, this, List.sum_cons, List.append_assoc, List.singleton_append,
      Nat.add_assoc]

theorem sum_range_eq (n : Nat) : (List.range n).sum = n * (n - 1) / 2 := by
  have h : (List.range n).sum * 2 = n * (n - 1) := by
    induction n with
    | zero => rfl
    | succ n ih =>
      rw [List.range_succ, List.sum_append, List.sum_singleton, Nat.add_mul, ih]
      cases n with
      | zero => rfl
      | succ m => simp only [Nat.add_sub_cancel]; ring
  omega

/-- With a worker count of zero the submission loop of the high-volume run
gets nowhere: it returns only when there is nothing to submit. -/
theorem submit_loop_zero_workers (strategy : Strategy) (schedule : Nat → List Nat) (n : Nat)
    (sys0 : System Nat) (ht : sys0.pool.tasks_ = [])
    (hstop : sys0.pool.stop_flag_ = false) (results : List Nat) (sys : System Nat)
    (hsub : submit_loop strategy schedule n sys0 = some (results, sys)) :
    n = 0 ∧ results = [] ∧ sys = sys0 := by
  induction n generalizing results sys with
  | zero =>
    simp only [submit_loop, Option.some.injEq, Prod.mk.injEq] at hsub
    exact ⟨rfl, hsub.1.symm, hsub.2.symm⟩
  | succ n ih =>
    exfalso
    rw [submit_loop] at hsub
    cases hprev : submit_loop strategy schedule n sys0 with
    | none => rw [hprev] at hsub; cases hsub
    | some r =>
      obtain ⟨results1, sys1⟩ := r
      obtain ⟨-, -, hsys⟩ := ih results1 sys1 hprev
      subst hsys
      rw [hprev] at hsub
      simp only [ThreadPool.enqueue_zero_workers sys1.pool sys1.heap _ ht hstop] at hsub
      cases hsub

/-- C4. For every `N` (a `size_t` count), every worker count and both
strategies, whatever the random draws and whichever worker threads make passes
between the submissions: if the `N` computations, the `i`-th returning `i`, are
submitted with `enqueue` on a newly constructed pool, then the futures are
those of submissions `0 .. N - 1`, retrieving them in order while the worker
threads go on making passes yields `i` from the future of the `i`-th
submission, and the sum of the results is `N (N - 1) / 2`.  With at least one
worker the submissions do all return. -/
theorem high_volume_sum (strategy : Strategy) (threads : Nat) (seed : Nat → Nat)
    (locals : Nat → ThreadLocal) (N : Nat) (schedule : Nat → List Nat) (patience : Nat)
    (pool : ThreadPool (Work Nat)) (results : List Nat) (sys : System Nat)
    (hN : N < SIZE_MOD) (hvalid : ∀ i, ∀ w ∈ schedule i, w < threads) (hp : N ≤ patience)
    (hpool : ThreadPool.construct threads seed = Except.ok pool)
    (hsub : submit_loop strategy schedule N { pool := pool, heap := [], locals := locals }
      = some (results, sys)) :
    results = List.range N ∧
    collect_loop strategy patience results sys ([], 0)
      = some (List.range N, N * (N - 1) / 2) ∧
    test_high_volume strategy threads seed locals N schedule patience
      = some (List.range N, N * (N - 1) / 2) ∧
    (0 < threads → ∀ (N' : Nat), N' < SIZE_MOD →
      ∃ r s, submit_loop strategy schedule N' { pool := pool, heap := [], locals := locals }
        = some (r, s)) := by
  simp only [ThreadPool.construct, Except.ok.injEq] at hpool
  subst hpool
  have hinv0 : HighVolumeInvariant threads
      { pool := { workers_size_ := threads, tasks_ := List.replicate threads [],
                  stop_flag_ := false, rng := seed },
        heap := [], locals := locals } :=
    { wf := by simp
      workers := rfl
      running := rfl
      results := fun i hi => by simp at hi
      queued_eq := by simp [ThreadPool.queued, pending] }
  have hsucc : 0 < threads → ∀ (N' : Nat), N' < SIZE_MOD →
      ∃ r s, submit_loop strategy schedule N'
        { pool := { workers_size_ := threads, tasks_ := List.replicate threads [],
                    stop_flag_ := false, rng := seed },
          heap := [], locals := locals } = some (r, s) := by
    intro hthreads N' hN'
    obtain ⟨s, hs, -, -⟩ := submit_loop_spec strategy threads schedule N' _ hinv0 rfl
      hthreads hvalid hN'
    exact ⟨_, s, hs⟩
  have key : results = List.range N ∧
      collect_loop strategy patience results sys ([], 0)
        = some (List.range N, N * (N - 1) / 2) := by
    rcases Nat.eq_zero_or_pos threads with h0 | hthreads
    · subst h0
      obtain ⟨hN0, hres, -⟩ := submit_loop_zero_workers strategy schedule N _ rfl rfl
        results sys hsub
      subst hN0
      subst hres
      exact ⟨rfl, rfl⟩
    · obtain ⟨sys', hs, hinv, hlen⟩ := submit_loop_spec strategy threads schedule N _ hinv0 rfl
        hthreads hvalid hN
      rw [hs] at hsub
      simp only [Option.some.injEq, Prod.mk.injEq] at hsub
      obtain ⟨hres, hsys⟩ := hsub
      subst hres
      subst hsys
      have hc := collect_loop_spec strategy threads patience (List.range N) sys' ([], 0) hinv
        (fun i hi => by rw [hlen]; exact List.mem_range.mp hi) (by rw [hlen]; exact hN)
        (by rw [hlen]; exact hp)
      simp only [List.nil_append, Nat.zero_add, sum_range_eq] at hc
      exact ⟨rfl, hc⟩
  refine ⟨key.1, key.2, ?_, hsucc⟩
  simp only [test_high_volume, ThreadPool.construct, hsub, key.2]

/-- Witness of C4: three submissions on two workers under
work-sharing, worker 0 making a pass after each submission. -/
theorem high_volume_sum_witness :
    test_high_volume Strategy.WorkSharing 2 (fun n => n)
        (fun _ => { generator := fun _ => 0, distribution := none }) 3 (fun _ => [0]) 3
      = some ([0, 1, 2], 3) := by
  obtain ⟨r, s, hs⟩ : ∃ r s, submit_loop Strategy.WorkSharing (fun _ => [0]) 3
      { pool := { workers_size_ := 2, tasks_ := List.replicate 2 [], stop_flag_ := false,
                  rng := fun n => n },
        heap := [], locals := fun _ => { generator := fun _ => 0, distribution := none } }
      = some (r, s) := by
    obtain ⟨s, hs, -, -⟩ := submit_loop_spec Strategy.WorkSharing 2 (fun _ => [0]) 3
      { pool := { workers_size_ := 2, tasks_ := List.replicate 2 [], stop_flag_ := false,
                  rng := fun n => n },
        heap := [], locals := fun _ => { generator := fun _ => 0, distribution := none } }
      { wf := rfl, workers := rfl, running := rfl, results := fun i hi => by simp at hi,
        queued_eq := rfl }
      rfl (by decide) (fun _ w hw => by simp at hw; omega) (by decide)
    exact ⟨_, s, hs⟩
  exact (high_volume_sum Strategy.WorkSharing 2 (fun n => n)
    (fun _ => { generator := fun _ => 0, distribution := none }) 3 (fun _ => [0]) 3
    _ r s (by decide) (fun _ w hw => by simp at hw; omega) (le_refl _) rfl hs).2.2.1

/-- The figures of the test `HighVolume`: 1000 submissions on 100 workers give
the sum 499500 under both strategies. -/
theorem high_volume_test_figures (strategy : Strategy) (seed : Nat → Nat)
    (locals : Nat → ThreadLocal) (schedule : Nat → List Nat)
    (hvalid : ∀ i, ∀ w ∈ schedule i, w < 100) :
    test_high_volume strategy 100 seed locals 1000 schedule 1000
      = some (List.range 1000, 499500) := by
  have hinv0 : HighVolumeInvariant 100
      { pool := { workers_size_ := 100, tasks_ := List.replicate 100 [],
                  stop_flag_ := false, rng := seed },
        heap := [], locals := locals } :=
    { wf := by simp
      workers := rfl
      running := rfl
      results := fun i hi => by simp at hi
      queued_eq := by simp [ThreadPool.queued, pending] }
  have h1000 : (1000 : Nat) < SIZE_MOD := by decide
  obtain ⟨sys, hs, hinv, hlen⟩ := submit_loop_spec strategy 100 schedule 1000 _ hinv0 rfl
    (by decide) hvalid h1000
  have hc := collect_loop_spec strategy 100 1000 (List.range 1000) sys ([], 0) hinv
    (fun i hi => by rw [hlen]; exact List.mem_range.mp hi) (by rw [hlen]; exact h1000)
    (by rw [hlen])
  rw [sum_range_eq, List.nil_append, Nat.zero_add] at hc
  have hsum : 1000 * (1000 - 1) / 2 = 499500 := by norm_num
  rw [hsum] at hc
  rw [test_high_volume]
  simp only [ThreadPool.construct]
  rw [hs]
  exact hc

end HighVolume

/-! ### Rebalance decision -/

theorem uniform_int_distribution_range (a b g : Nat) (hab : a ≤ b) :
    a ≤ uniform_int_distribution a b g ∧ uniform_int_distribution a b g ≤ b := by
  unfold uniform_int_distribution
  have := Nat.mod_lt g (show 0 < b - a + 1 by omega)
  omega

theorem uniform_int_distribution_onto (a b x : Nat) (hax : a ≤ x) (hxb : x ≤ b) :
    uniform_int_distribution a b (x - a) = x := by
  unfold uniform_int_distribution
  rw [Nat.mod_eq_of_lt (by omega)]
  omega

/-- On a thread that has not yet initialised the `thread_local` objects,
`get_random_with_probability(n)` for `n > 0` is true exactly when the draw on
`1..n` is 1; for `n = 0` it is true on every thread. -/
theorem get_random_with_probability_first_call (generator : Nat → Nat) (n : Nat) :
    (get_random_with_probability { generator := generator, distribution := none } n).1
      = (if n = 0 then true else uniform_int_distribution 1 n (generator 0) == 1) := by
  unfold get_random_with_probability
  split_ifs <;> rfl

theorem get_random_with_probability_zero (tl : ThreadLocal) :
    get_random_with_probability tl 0 = (true, tl) := rfl

/-- C8, the source at the failing input: on one thread, after a first call with
`n = 2`, the call with `n = 1` still draws from `1..2` and returns `false` when
the draw is 2. -/
theorem get_random_with_probability_stale_distribution :
    (get_random_with_probability
        (get_random_with_probability { generator := fun _ => 1, distribution := none } 2).2 1).1
      = false ∧
    (get_random_with_probability
        (get_random_with_probability { generator := fun _ => 1, distribution := none } 2).2 1).2.distribution
      = some 2 := by
  constructor <;> decide

/-! ### Worker loop: one iteration -/

section WorkerLoop

variable {V : Type}

/-- C11. One iteration of the worker loop conserves work, under both
strategies.  On a running pool with one queue per worker, for a worker index
below the worker count (so there is at least one worker), whatever the random
draws: the iteration ends; the unit of work it executes is the one it found,
and with none found the shared states are untouched; at most one unit left the
queues; the units still queued plus the unit found are the units queued
before.  The unit found is the head of the worker's own queue when that queue
holds work; with an empty own queue it is none under work-sharing, where
`balance_queues` is entered only when the drawn victim differs from the
worker's index (a call with equal indices would not return); and under
work-stealing it is the head of the first queue holding work among
`workers_size_` random picks, or none when all the picked queues are empty. -/
theorem worker_pass_conserves (strategy : Strategy) (sys : System V) (index : Nat)
    (hwf : sys.pool.tasks_.length = sys.pool.workers_size_)
    (hidx : index < sys.pool.workers_size_)
    (hfit : ∀ q ∈ sys.pool.tasks_, unsafe_size q < SIZE_MOD)
    (hstop : sys.pool.stop_flag_ = false) :
    ∃ (found : Option (Work V)) (pool' : ThreadPool (Work V)) (tl' : ThreadLocal),
      ThreadPool.worker_iteration strategy sys.pool index (sys.locals index)
        = some (found, pool', tl') ∧
      (found = none → worker_thread_pass strategy sys index
        = some { pool := pool', heap := sys.heap,
                 locals := Function.update sys.locals index tl' }) ∧
      (∀ task : Work V, found = some task → worker_thread_pass strategy sys index
        = match task sys.heap with
          | some (Except.ok (), heap') =>
            some { pool := pool', heap := heap',
                   locals := Function.update sys.locals index tl' }
          | _ => none) ∧
      Multiset.card (ThreadPool.queued pool') ≤ Multiset.card (ThreadPool.queued sys.pool) ∧
      Multiset.card (ThreadPool.queued sys.pool) ≤ Multiset.card (ThreadPool.queued pool') + 1 ∧
      ((found.toList : List (Work V)) : Multiset (Work V)) + ThreadPool.queued pool'
        = ThreadPool.queued sys.pool ∧
      (∀ (task : Work V) (rest : List (Work V)), sys.pool.tasks_[index]? = some (task :: rest) →
        found = some task ∧ pool'.tasks_ = sys.pool.tasks_.set index rest) ∧
      (sys.pool.tasks_[index]? = some [] → strategy = Strategy.WorkSharing →
        found = none ∧
        ((ThreadPool.get_rng_index sys.pool).1 = index → pool'.tasks_ = sys.pool.tasks_) ∧
        ((ThreadPool.get_rng_index sys.pool).1 ≠ index →
          ThreadPool.balance_queues (ThreadPool.get_rng_index sys.pool).2 index
            (ThreadPool.get_rng_index sys.pool).1 = some pool') ∧
        ThreadPool.balance_queues (ThreadPool.get_rng_index sys.pool).2 index index = none) ∧
      (sys.pool.tasks_[index]? = some [] → strategy = Strategy.WorkStealing →
        (ThreadPool.random_picks sys.pool sys.pool.workers_size_).length
          = sys.pool.workers_size_ ∧
        (ThreadPool.first_nonempty_pick sys.pool sys.pool.workers_size_ = none →
          found = none ∧ pool'.tasks_ = sys.pool.tasks_) ∧
        (∀ v, ThreadPool.first_nonempty_pick sys.pool sys.pool.workers_size_ = some v →
          ∃ (task : Work V) (rest : List (Work V)),
            sys.pool.tasks_[v]? = some (task :: rest) ∧
            found = some task ∧ pool'.tasks_ = sys.pool.tasks_.set v rest)) := by
  obtain ⟨found, pool', tl', hwi, hcons, hown, hshare, hsteal⟩ :=
    ThreadPool.worker_iteration_exact strategy sys.pool index (sys.locals index) hwf hidx hfit
  have hcard := congrArg Multiset.card hcons
  rw [Multiset.card_add, Multiset.coe_card] at hcard
  have hone : found.toList.length ≤ 1 := by
    cases found <;> simp
  refine ⟨found, pool', tl', hwi, ?_, ?_, by omega, by omega, hcons, hown, ?_, ?_⟩
  · intro hf
    subst hf
    simp only [worker_thread_pass, hstop, hwi]
    rfl
  · intro task hf
    subst hf
    simp only [worker_thread_pass, hstop, hwi]
    rfl
  · intro h1 h2
    obtain ⟨a, b, c⟩ := hshare h1 h2
    exact ⟨a, b, c, ThreadPool.balance_queues_same _ _⟩
  · intro h1 h2
    obtain ⟨a, b⟩ := hsteal h1 h2
    exact ⟨by simp [ThreadPool.random_picks], a, b⟩

/-- Witness of C11: an idle worker 0 of two steals the head of queue 1. -/
theorem worker_pass_conserves_witness :
    ∃ (found : Option (Work Nat)) (pool' : ThreadPool (Work Nat)) (tl' : ThreadLocal),
      ThreadPool.worker_iteration Strategy.WorkStealing
          (⟨2, [[], [high_volume_work 0, high_volume_work 1]], false, fun _ => 1⟩ :
            ThreadPool (Work Nat))
          0 { generator := fun _ => 0, distribution := none }
        = some (found, pool', tl') ∧
      found = some (high_volume_work 0) ∧
      pool'.tasks_ = [[], [high_volume_work 1]] := by
  obtain ⟨found, pool', tl', hwi, -, -, -, -, -, -, -, hsteal⟩ :=
    worker_pass_conserves Strategy.WorkStealing
      ({ pool := ⟨2, [[], [high_volume_work 0, high_volume_work 1]], false, fun _ => 1⟩,
         heap := [none, none],
         locals := fun _ => { generator := fun _ => 0, distribution := none } } : System Nat)
      0 rfl (by decide)
      (fun q hq => by
        simp only [List.mem_cons, List.mem_singleton, List.not_mem_nil, or_false] at hq
        rcases hq with rfl | rfl <;> decide)
      rfl
  obtain ⟨-, -, hv⟩ := hsteal rfl rfl
  obtain ⟨task, rest, hq, hf, ht⟩ := hv 1 (by decide)
  simp only [List.getElem?_cons_succ, List.getElem?_cons_zero, Option.some.injEq,
    List.cons.injEq] at hq
  obtain ⟨h1, h2⟩ := hq
  subst h1
  subst h2
  exact ⟨found, pool', tl', hwi, hf, by simpa using ht⟩

end WorkerLoop

end ThreadPoolModel
